import Mathlib

/-!
# autoclean-async: cleanup registry and ring log

A shallow embedding of `src/autoclean.c` / `src/autoclean.h`.

Modelling conventions.

* A `void *` is a `Nat` address, `0` being `NULL`.  An `AC_CleanupFn` is an
  `Option CleanupFn`, `none` being the null function pointer.
* `cleanup_list` is `none` (NULL) or `some block`, the list of slots of the
  allocated block.  A read or write outside the block, or through NULL, has
  no defined behaviour: the operation then returns `none`.
* `malloc` / `realloc` are the environment's choice: every operation that
  may call them takes the outcome as an argument (`Heap`), `none` being a
  NULL return and `some junk` a success whose fresh slots hold `junk i`.
* Every registry operation runs its whole body under `cleanup_lock`, every
  log operation under `al->lock`; the embedding is of one critical section
  at a time, so the lock itself does not appear.
* Observable effects (calls of release actions, text written to the two
  output streams) are collected in a trace of `Event`s.  A release action
  is opaque: it is called with `cleanup_lock` held, so it cannot re-enter
  a registry operation, and the registry it returns to is the one it was
  called from.
* `size_t` counters are natural numbers.  An entry occupies 16 bytes, and
  the first product that could wrap, `sizeof(AC_Entry) * new_capacity`,
  needs an existing block of `2^59` entries (`2^63` bytes, more than any
  allocation can hold), so neither the counters nor the request size wrap
  on a registry that is backed by storage; for the same reason the
  conversion of `cleanup_count - 1` to `ssize_t` is exact.  The ring log
  indices are only ever used modulo 64, which divides `2^64`.
* Loops are structural recursions on a fuel argument that is fixed by the
  caller to a bound on the number of guard evaluations; running out of fuel
  yields `none`, and the theorems show that this never happens on the
  states they are about.
-/

namespace Autoclean

/-! ## Data model -/

/-- Address of a release function: the C library `free`, or a caller's own function. -/
inductive CleanupFn where
  | free
  | user (id : Nat)
deriving DecidableEq, Repr

/-- The `AC_Entry` struct of autoclean.h: `ptr` (0 is NULL) and `fn` (none is NULL). -/
structure AC_Entry where
  ptr : Nat
  fn : Option CleanupFn
deriving DecidableEq, Repr

/-- Observable effects of the operations. -/
inductive Event where
  | call (fn : CleanupFn) (arg : Nat)
  | stderr (text : List Char)
  | stdout (text : List Char)
deriving DecidableEq, Repr

/-- The three file-scope variables of autoclean.c that make up the registry. -/
structure Registry where
  cleanup_list : Option (List AC_Entry)
  cleanup_count : Nat
  cleanup_capacity : Nat
deriving DecidableEq, Repr

/-- What an operation returns, what it did, and the registry it leaves. -/
structure Outcome (α : Type) where
  ret : α
  trace : List Event
  reg : Registry

/-- Outcome of one `malloc`/`realloc` of entry storage. -/
abbrev Heap := Option (Nat → AC_Entry)

def INITIAL_LIST_SIZE : Nat := 0x400

/-- The initial values of the file-scope variables (lines 8-10). -/
def Registry.init : Registry :=
  { cleanup_list := none, cleanup_count := 0, cleanup_capacity := 0 }

/-- Read of `cleanup_list[i]`. -/
def Registry.load (s : Registry) (i : Nat) : Option AC_Entry :=
  match s.cleanup_list with
  | none => none
  | some l => l[i]?

/-- Write `cleanup_list[i] = e`. -/
def Registry.store (s : Registry) (i : Nat) (e : AC_Entry) : Option Registry :=
  match s.cleanup_list with
  | none => none
  | some l => if i < l.length then some { s with cleanup_list := some (l.set i e) } else none

/-- The entry sequence of the registry: slots `0 .. cleanup_count - 1`. -/
def Registry.entries (s : Registry) : List AC_Entry :=
  match s.cleanup_list with
  | none => []
  | some l => l.take s.cleanup_count

/-- A block of `n` slots from `malloc`, contents indeterminate. -/
def mallocBlock (n : Nat) (junk : Nat → AC_Entry) : List AC_Entry :=
  (List.range n).map junk

/-- A successful `realloc(old, n slots)`: the old contents up to the smaller of the
two sizes, fresh slots indeterminate. -/
def reallocBlock (old : List AC_Entry) (n : Nat) (junk : Nat → AC_Entry) : List AC_Entry :=
  (List.range n).map (fun i => (old[i]?).getD (junk i))

/-! ## Registry operations -/

/-- Embedding of `ac_ensure_capacity` (lines 16-39); returns the C `int` and the new state. -/
def ac_ensure_capacity (heap : Heap) (s : Registry) : Int × Registry :=
  match s.cleanup_list with
  | none =>
    let s1 := { s with cleanup_capacity := INITIAL_LIST_SIZE }
    match heap with
    | none => (0, s1)
    | some junk =>
      (1, { s1 with cleanup_list := some (mallocBlock s1.cleanup_capacity junk) })
  | some old =>
    if s.cleanup_count ≥ s.cleanup_capacity then
      let new_capacity := s.cleanup_capacity * 2
      match heap with
      | none => (0, s)
      | some junk =>
        (1, { s with cleanup_list := some (reallocBlock old new_capacity junk),
                     cleanup_capacity := new_capacity })
    else (1, s)

/-- Text of the diagnostic of line 46. -/
def allocFailedMsg (size : Nat) : List Char :=
  "Failed to allocate ".toList ++ (Nat.repr size).toList ++ " bytes\n".toList

/-- Embedding of `AC_Alloc` (lines 41-62); `ptr` is what `malloc(size)` returned. -/
def AC_Alloc (ptr : Nat) (heap : Heap) (size : Nat) (s : Registry) : Option (Outcome Nat) :=
  if ptr = 0 then
    some ⟨0, [Event.stderr (allocFailedMsg size)], s⟩
  else
    let r := ac_ensure_capacity heap s
    if r.1 = 0 then
      some ⟨0, [Event.call CleanupFn.free ptr], r.2⟩
    else
      match r.2.store r.2.cleanup_count ⟨ptr, some CleanupFn.free⟩ with
      | none => none
      | some s2 => some ⟨ptr, [], { s2 with cleanup_count := r.2.cleanup_count + 1 }⟩

/-- Embedding of `AC_Register` (lines 86-96). -/
def AC_Register (heap : Heap) (ptr : Nat) (fn : Option CleanupFn) (s : Registry) :
    Option (Outcome Unit) :=
  let r := ac_ensure_capacity heap s
  if r.1 = 0 then
    some ⟨(), [], r.2⟩
  else
    match r.2.store r.2.cleanup_count ⟨ptr, fn⟩ with
    | none => none
    | some s2 => some ⟨(), [], { s2 with cleanup_count := r.2.cleanup_count + 1 }⟩

/-- Inner loop of `AC_Remove` (lines 113-116), entered with `j = i`. -/
def shiftDown : Nat → Nat → Registry → Option Registry
  | 0, _, _ => none
  | fuel + 1, j, s =>
    if j + 1 < s.cleanup_count then
      match s.load (j + 1) with
      | none => none
      | some e =>
        match s.store j e with
        | none => none
        | some s1 => shiftDown fuel (j + 1) s1
    else some s

/-- The effect of `if (fn) fn(ptr)` (lines 106-110). -/
def releaseCall (e : AC_Entry) : List Event :=
  match e.fn with
  | some f => [Event.call f e.ptr]
  | none => []

/-- Outer loop of `AC_Remove` (lines 102-122), entered with `i = 0`. -/
def removeLoop (ptr : Nat) : Nat → Nat → Registry → Option (Outcome Int)
  | 0, _, _ => none
  | fuel + 1, i, s =>
    if i < s.cleanup_count then
      match s.load i with
      | none => none
      | some e =>
        if e.ptr = ptr then
          match shiftDown (s.cleanup_count + 1) i s with
          | none => none
          | some s1 =>
            some ⟨1, releaseCall e, { s1 with cleanup_count := s1.cleanup_count - 1 }⟩
        else removeLoop ptr fuel (i + 1) s
    else some ⟨0, [], s⟩

/-- Embedding of `AC_Remove` (lines 98-125). -/
def AC_Remove (ptr : Nat) (s : Registry) : Option (Outcome Int) :=
  removeLoop ptr (s.cleanup_count + 1) 0 s

/-- The effect of `if (ptr && fn) fn(ptr)` (lines 132-135). -/
def cleanupCall (e : AC_Entry) : List Event :=
  if e.ptr ≠ 0 then releaseCall e else []

/-- Loop of `AC_CleanupAll` (lines 130-136); `i` is the signed loop index. -/
def cleanupLoop : Nat → Int → Registry → Option (List Event)
  | 0, _, _ => none
  | fuel + 1, i, s =>
    if i ≥ 0 then
      match s.load i.toNat with
      | none => none
      | some e =>
        match cleanupLoop fuel (i - 1) s with
        | none => none
        | some rest => some (cleanupCall e ++ rest)
    else some []

/-- Embedding of `AC_CleanupAll` (lines 127-139). -/
def AC_CleanupAll (s : Registry) : Option (Outcome Unit) :=
  match cleanupLoop (s.cleanup_count + 1) ((s.cleanup_count : Int) - 1) s with
  | none => none
  | some tr => some ⟨(), tr, { s with cleanup_count := 0 }⟩

/-- One more than `SIZE_MAX`: `size_t` is 64 bits wide. -/
def SIZE_MOD : Nat := 2 ^ 64

/-- Embedding of `AC_ArrayAlloc` (lines 64-67).  The product is the `size_t` product;
`malloc` gives the pointer the allocator returns for a request of that many bytes. -/
def AC_ArrayAlloc (malloc : Nat → Nat) (heap : Heap) (count size : Nat) (s : Registry) :
    Option (Outcome Nat) :=
  AC_Alloc (malloc ((count * size) % SIZE_MOD)) heap ((count * size) % SIZE_MOD) s

/-! ## Ring log -/

def ASYNC_LOG_CAPACITY : Nat := 64

def ASYNC_LOG_MSG_SIZE : Nat := 128

/-- The string terminator. -/
def NUL : Char := Char.ofNat 0

/-- The `AsyncLog` struct of autoclean.h: `buffer[64][128]` as a list of slots, each a
list of characters, and the two indices. -/
structure AsyncLog where
  buffer : List (List Char)
  head : Nat
  tail : Nat
deriving DecidableEq, Repr

/-- The characters of the C string that starts at the beginning of `bytes`: those before
the first terminator (all of `bytes` when it holds none). -/
def cstr (bytes : List Char) : List Char :=
  bytes.takeWhile (fun c => c ≠ NUL)

/-- The library `strncpy(dest, src, n)`: the first `n` bytes of `dest` become the string
`src` cut to `n` characters and padded with terminators; the rest of `dest` is kept. -/
def strncpy (dest src : List Char) (n : Nat) : List Char :=
  (cstr src).take n ++ List.replicate (n - ((cstr src).take n).length) NUL ++ dest.drop n

/-- What `printf("%s\n", slot)` writes: the string held in the slot and a newline.  A slot
without a terminator has no string in it, and the read has no defined result. -/
def printLine (slot : List Char) : Option Event :=
  if NUL ∈ slot then some (Event.stdout (cstr slot ++ ['\n'])) else none

/-- Embedding of `AsyncLogInit` (lines 179-184): the indices are zeroed, the buffer is
left as it is. -/
def AsyncLogInit (al : AsyncLog) : AsyncLog :=
  { al with head := 0, tail := 0 }

/-- Embedding of `AsyncLogPush` (lines 186-201). -/
def AsyncLogPush (al : AsyncLog) (msg : List Char) : Option AsyncLog :=
  let head := al.head
  let next := (head + 1) % ASYNC_LOG_CAPACITY
  let al1 := if next = al.tail then { al with tail := (al.tail + 1) % ASYNC_LOG_CAPACITY } else al
  match al1.buffer[head]? with
  | none => none
  | some slot =>
    let slot1 := strncpy slot msg (ASYNC_LOG_MSG_SIZE - 1)
    let slot2 := slot1.set (ASYNC_LOG_MSG_SIZE - 1) NUL
    some { al1 with buffer := al1.buffer.set head slot2, head := next }

/-- Loop of `AsyncLogFlush` (lines 206-211). -/
def flushLoop : Nat → AsyncLog → Option (List Event × AsyncLog)
  | 0, _ => none
  | fuel + 1, al =>
    if al.tail ≠ al.head then
      let tail := al.tail
      match al.buffer[tail]? with
      | none => none
      | some slot =>
        match printLine slot with
        | none => none
        | some ev =>
          match flushLoop fuel { al with tail := (tail + 1) % ASYNC_LOG_CAPACITY } with
          | none => none
          | some (out, al2) => some (ev :: out, al2)
    else some ([], al)

/-- Embedding of `AsyncLogFlush` (lines 203-213).  The loop stops within 63 iterations
or never (the tail runs through the 64 residues), so 64 guard evaluations decide it. -/
def AsyncLogFlush (al : AsyncLog) : Option (List Event × AsyncLog) :=
  flushLoop ASYNC_LOG_CAPACITY al

/-- Pushing a sequence of messages, first to last. -/
def pushAll : List (List Char) → AsyncLog → Option AsyncLog
  | [], al => some al
  | m :: ms, al =>
    match AsyncLogPush al m with
    | none => none
    | some al1 => pushAll ms al1

/-! ## Asynchronous cleanup and the shared log -/

/-- The file-scope state of autoclean.c: the registry variables and `ac_log`. -/
structure Global where
  reg : Registry
  ac_log : AsyncLog

/-- A use of the shared instance `ac_log` by one of the three log functions. -/
inductive LogUse where
  | init
  | push
  | flush
deriving DecidableEq, Repr

/-- What a file-scope operation did: its output, its uses of `ac_log`, the state left. -/
structure Run where
  trace : List Event
  logUses : List LogUse
  glob : Global

/-- Text of the diagnostic of line 168. -/
def threadFailedMsg : List Char := "Failed to create cleanup thread, running sync\n".toList

/-- The message built at line 171. -/
def fallbackMsg : List Char := "[AC_CleanupAll-Fallback] Finished sync cleanup".toList

/-- The message built at line 153 by `snprintf` into 128 bytes; `elapsed` is the text
that `%.6f` gives for the measured time. -/
def finishedMsg (elapsed : List Char) : List Char :=
  ("[AC_CleanupAllAsync] Finished in ".toList ++ elapsed ++ " sec".toList).take
    (ASYNC_LOG_MSG_SIZE - 1)

/-- Embedding of `ac_cleanup_thread` (lines 141-156), the body of the background task. -/
def ac_cleanup_thread (elapsed : List Char) (g : Global) : Option Run :=
  match AC_CleanupAll g.reg with
  | none => none
  | some o =>
    match AsyncLogPush g.ac_log (finishedMsg elapsed) with
    | none => none
    | some al => some ⟨o.trace, [LogUse.push], ⟨o.reg, al⟩⟩

/-- Embedding of `AC_CleanupAllAsync` (lines 158-175) as far as the calling thread runs
it; `rc` is what `pthread_create` returned.  When the thread was created, its body
`ac_cleanup_thread` runs on its own. -/
def AC_CleanupAllAsync (rc : Int) (g : Global) : Option Run :=
  if rc ≠ 0 then
    match AC_CleanupAll g.reg with
    | none => none
    | some o =>
      match AsyncLogPush g.ac_log fallbackMsg with
      | none => none
      | some al =>
        some ⟨Event.stderr threadFailedMsg :: o.trace, [LogUse.push], ⟨o.reg, al⟩⟩
  else some ⟨[], [], g⟩

/-- Embedding of `AC_FlushLogs` (lines 215-218). -/
def AC_FlushLogs (g : Global) : Option Run :=
  match AsyncLogFlush g.ac_log with
  | none => none
  | some r => some ⟨r.1, [LogUse.flush], ⟨g.reg, r.2⟩⟩

/-! ## Sequences of operations and the properties the theorems speak about -/

/-- Number of slots of the allocated block (0 when there is none). -/
def Registry.slots (s : Registry) : Nat :=
  match s.cleanup_list with
  | none => 0
  | some l => l.length

/-- A registry state whose counted entries all lie inside the allocated block. -/
def Registry.valid (s : Registry) : Prop := s.cleanup_count ≤ s.slots

instance (s : Registry) : Decidable s.valid := by
  unfold Registry.valid; infer_instance

/-- The invariant of the three registry variables: the count is within the capacity;
while there is no block no entry is counted and the capacity is 0 or the initial size; a
block has exactly `cleanup_capacity` slots, at least one. -/
def Registry.consistent (s : Registry) : Prop :=
  s.cleanup_count ≤ s.cleanup_capacity ∧
  (s.cleanup_list = none →
    s.cleanup_count = 0 ∧ (s.cleanup_capacity = 0 ∨ s.cleanup_capacity = INITIAL_LIST_SIZE)) ∧
  (s.cleanup_list ≠ none → s.slots = s.cleanup_capacity ∧ 0 < s.cleanup_capacity)

instance (s : Registry) : Decidable s.consistent := by
  unfold Registry.consistent; infer_instance

/-- Handle `h` is registered: some entry of the sequence has it as its `ptr`. -/
def registered (h : Nat) (es : List AC_Entry) : Prop := ∃ e ∈ es, e.ptr = h

instance (h : Nat) (es : List AC_Entry) : Decidable (registered h es) := by
  unfold registered; infer_instance

/-- The first (earliest registered) entry whose handle is `h`. -/
def firstMatch (h : Nat) (es : List AC_Entry) : Option AC_Entry :=
  es.find? (fun e => decide (e.ptr = h))

/-- An entry sequence with its first entry whose handle is `h` deleted, the others kept
in order. -/
def deleteFirst (h : Nat) : List AC_Entry → List AC_Entry
  | [] => []
  | e :: es => if e.ptr = h then es else e :: deleteFirst h es

/-- Handle and action of an entry are both present. -/
def AC_Entry.present (e : AC_Entry) : Bool := e.ptr != 0 && e.fn.isSome

/-- The invocation of an entry's action on the entry's own handle. -/
def AC_Entry.invocation (e : AC_Entry) : Option Event :=
  e.fn.map (fun f => Event.call f e.ptr)

/-- The release trace the specification gives a full cleanup of the entry sequence `es`:
the reversed sequence restricted to the present entries, one invocation each. -/
def lifoTrace (es : List AC_Entry) : List Event :=
  (es.reverse.filter AC_Entry.present).filterMap AC_Entry.invocation

/-- A run of `AC_Register` calls, each with the heap outcome it meets. -/
def registerAll : List (Heap × AC_Entry) → Registry → Option Registry
  | [], s => some s
  | c :: cs, s =>
    match AC_Register c.1 c.2.ptr c.2.fn s with
    | none => none
    | some o => registerAll cs o.reg

/-- The registry operations, each with the outcomes of the allocations it may make. -/
inductive Op where
  | alloc (ptr : Nat) (heap : Heap) (size : Nat)
  | register (heap : Heap) (ptr : Nat) (fn : Option CleanupFn)
  | remove (ptr : Nat)
  | cleanupAll

/-- The registry after one operation. -/
def Op.step (op : Op) (s : Registry) : Option Registry :=
  match op with
  | Op.alloc ptr heap size => (AC_Alloc ptr heap size s).map (fun o => o.reg)
  | Op.register heap ptr fn => (AC_Register heap ptr fn s).map (fun o => o.reg)
  | Op.remove ptr => (AC_Remove ptr s).map (fun o => o.reg)
  | Op.cleanupAll => (AC_CleanupAll s).map (fun o => o.reg)

/-- The registry after a sequence of operations. -/
def runOps : List Op → Registry → Option Registry
  | [], s => some s
  | op :: ops, s =>
    match op.step s with
    | none => none
    | some s1 => runOps ops s1

/-- The shape the C type gives the buffer: 64 slots of 128 characters. -/
def AsyncLog.shaped (al : AsyncLog) : Prop :=
  al.buffer.length = ASYNC_LOG_CAPACITY ∧ ∀ slot ∈ al.buffer, slot.length = ASYNC_LOG_MSG_SIZE

instance (al : AsyncLog) : Decidable al.shaped := by
  unfold AsyncLog.shaped; infer_instance

/-- The message `msg` as a slot keeps it: cut to 127 characters. -/
def truncated (msg : List Char) : List Char :=
  (cstr msg).take (ASYNC_LOG_MSG_SIZE - 1)

/-- The unread slots, oldest first: `tail, tail+1, ..., head-1`, indices modulo 64. -/
def AsyncLog.unread (al : AsyncLog) : List (List Char) :=
  (List.range ((al.head + ASYNC_LOG_CAPACITY - al.tail) % ASYNC_LOG_CAPACITY)).map
    (fun k => (al.buffer[(al.tail + k) % ASYNC_LOG_CAPACITY]?).getD [])

/-- One emitted line: the text and a newline. -/
def line (text : List Char) : Event := Event.stdout (text ++ ['\n'])

/-- The file-scope state when the program starts: the registry variables as initialised
at lines 8-10, `ac_log` zero-filled as every object of static storage is. -/
def Global.init : Global :=
  { reg := Registry.init,
    ac_log := { buffer := List.replicate ASYNC_LOG_CAPACITY (List.replicate ASYNC_LOG_MSG_SIZE NUL),
                head := 0, tail := 0 } }

/-- The operations on the file-scope state that a program can cause: the registry
operations (`AC_ArrayAlloc` and `AC_Strdup` act on the state as the `AC_Alloc` they
call), the asynchronous cleanup, the background task it may have started, and the flush
of the shared log.  `ac_log` is `static`: no caller can hand it to `AsyncLogInit`. -/
inductive Api where
  | registry (op : Op)
  | cleanupAllAsync (rc : Int)
  | backgroundTask (elapsed : List Char)
  | flushLogs

/-- One operation on the file-scope state. -/
def Api.step (a : Api) (g : Global) : Option Run :=
  match a with
  | Api.registry op =>
    match op.step g.reg with
    | none => none
    | some s => some ⟨[], [], ⟨s, g.ac_log⟩⟩
  | Api.cleanupAllAsync rc => AC_CleanupAllAsync rc g
  | Api.backgroundTask elapsed => ac_cleanup_thread elapsed g
  | Api.flushLogs => AC_FlushLogs g

/-- The uses of `ac_log` made by a sequence of operations, in order, and the state left. -/
def runApi : List Api → Global → Option (List LogUse × Global)
  | [], g => some ([], g)
  | a :: rest, g =>
    match a.step g with
    | none => none
    | some r =>
      match runApi rest r.glob with
      | none => none
      | some (uses, g2) => some (r.logUses ++ uses, g2)

/-- The two operations on a ring log after its initialisation. -/
inductive LogOp where
  | push (msg : List Char)
  | flush

/-- The log after one operation. -/
def LogOp.step (op : LogOp) (al : AsyncLog) : Option AsyncLog :=
  match op with
  | LogOp.push msg => AsyncLogPush al msg
  | LogOp.flush => (AsyncLogFlush al).map (fun r => r.2)

/-- The log after a sequence of operations. -/
def runLog : List LogOp → AsyncLog → Option AsyncLog
  | [], al => some al
  | op :: ops, al =>
    match op.step al with
    | none => none
    | some al1 => runLog ops al1

/-- The number of unread messages: `(head - tail) mod 64`. -/
def AsyncLog.pending (al : AsyncLog) : Nat :=
  (al.head + ASYNC_LOG_CAPACITY - al.tail) % ASYNC_LOG_CAPACITY

/-- The invariant of a log in use: both indices are in range, the buffer has its shape,
and every unread slot holds a terminated string. -/
def AsyncLog.ready (al : AsyncLog) : Prop :=
  al.head < ASYNC_LOG_CAPACITY ∧ al.tail < ASYNC_LOG_CAPACITY ∧ al.shaped ∧
  ∀ slot ∈ al.unread, NUL ∈ slot

instance (al : AsyncLog) : Decidable al.ready := by
  unfold AsyncLog.ready; infer_instance

/-- The registry with its block cut down to the first `cleanup_count` slots.  On it, a
read or write at an index that is not below the count has no defined result. -/
def Registry.clamp (s : Registry) : Registry :=
  { s with cleanup_list := s.cleanup_list.map (fun l => l.take s.cleanup_count) }

/-! ## Concrete inputs -/

/-- Fresh storage as a zero-filled block would hold it. -/
def zeroJunk : Nat → AC_Entry := fun _ => ⟨0, none⟩

/-- Three registrations of distinct non-null handles with present actions. -/
def threeCalls : List (Heap × AC_Entry) :=
  [(some zeroJunk, ⟨100, some (CleanupFn.user 1)⟩),
   (some zeroJunk, ⟨200, some (CleanupFn.user 2)⟩),
   (some zeroJunk, ⟨300, some CleanupFn.free⟩)]

/-- One registration of the null handle with a present action. -/
def nullHandleCall : List (Heap × AC_Entry) :=
  [(some zeroJunk, ⟨0, some (CleanupFn.user 1)⟩)]

/-- A registration without an action, then one with an action. -/
def inertThenLive : List (Heap × AC_Entry) :=
  [(some zeroJunk, ⟨100, none⟩),
   (some zeroJunk, ⟨200, some (CleanupFn.user 2)⟩)]

/-- A registry holding three entries in a block of four slots; handle 6 has no action. -/
def smallReg : Registry :=
  { cleanup_list := some [⟨5, some (CleanupFn.user 1)⟩, ⟨6, none⟩, ⟨7, some CleanupFn.free⟩,
      ⟨0, none⟩],
    cleanup_count := 3, cleanup_capacity := 4 }

/-- The registry that `AC_CleanupAll` leaves of `smallReg`: empty, block and capacity
kept. -/
def emptiedReg : Registry := { smallReg with cleanup_count := 0 }

/-- The registry that a first registration leaves when the block cannot be allocated:
empty, without a block, the capacity already set to 1024. -/
def unbackedReg : Registry :=
  { cleanup_list := none, cleanup_count := 0, cleanup_capacity := INITIAL_LIST_SIZE }

/-- A registry whose block of two slots is full. -/
def fullReg : Registry :=
  { cleanup_list := some [⟨5, some (CleanupFn.user 1)⟩, ⟨7, some CleanupFn.free⟩],
    cleanup_count := 2, cleanup_capacity := 2 }

/-- Two thousand registrations, more than the initial capacity, of present handles with
present actions. -/
def manyCalls : List (Heap × AC_Entry) :=
  (List.range 2000).map (fun i => (some zeroJunk, ⟨i + 1, some CleanupFn.free⟩))

/-- A log whose 64 slots all hold the string "ok"; four slots are unread, across the
wrap-around. -/
def demoLog : AsyncLog :=
  { buffer := List.replicate 64 ('o' :: 'k' :: List.replicate 126 NUL), head := 2, tail := 62 }

/-- One hundred messages, the decimal numerals of 0 to 99. -/
def hundredMsgs : List (List Char) :=
  (List.range 100).map (fun i => (Nat.repr i).toList)

/-- A message of 200 characters, longer than a slot. -/
def longMsg : List Char := List.replicate 200 'a'

/-- Two entries with the null handle: the first has no action, the second has one. -/
def nullPair : Registry :=
  { cleanup_list := some [⟨0, none⟩, ⟨0, some (CleanupFn.user 1)⟩],
    cleanup_count := 2, cleanup_capacity := 2 }

/-- A registry whose second entry has the null handle and an action. -/
def nullLive : Registry :=
  { cleanup_list := some [⟨5, some CleanupFn.free⟩, ⟨0, some (CleanupFn.user 1)⟩, ⟨0, none⟩],
    cleanup_count := 2, cleanup_capacity := 3 }

/-- An allocator that serves requests of up to `2^40` bytes, at address 4096. -/
def boundedMalloc : Nat → Nat := fun n => if n ≤ 2 ^ 40 then 4096 else 0

/-- The file-scope state with `smallReg` as registry and the start-up log. -/
def smallGlobal : Global := { reg := smallReg, ac_log := Global.init.ac_log }

/-- The calls of `main` (main.c lines 24-65) as they reach the file-scope state, with
every allocation succeeding, the thread created, and its body run before the flush. -/
def mainCalls : List Api :=
  [Api.registry (Op.alloc 1000 (some zeroJunk) 128),
   Api.registry (Op.alloc 2000 (some zeroJunk) 17),
   Api.registry (Op.register (some zeroJunk) 4096 (some (CleanupFn.user 1))),
   Api.registry (Op.register (some zeroJunk) 4096 (some (CleanupFn.user 1))),
   Api.registry (Op.remove 2000),
   Api.cleanupAllAsync 0,
   Api.backgroundTask "0.000012".toList,
   Api.flushLogs]

/-- Seventy pushes with a flush after the first five. -/
def mixedLogOps : List LogOp :=
  (hundredMsgs.take 5).map LogOp.push ++ [LogOp.flush] ++ (hundredMsgs.drop 30).map LogOp.push

/-- Three registrations, a removal, a failed allocation and one more registration. -/
def mixedOps : List Op :=
  [Op.register (some zeroJunk) 100 (some (CleanupFn.user 1)),
   Op.alloc 200 (some zeroJunk) 16,
   Op.register (some zeroJunk) 300 none,
   Op.remove 200,
   Op.alloc 0 none 64,
   Op.register none 400 (some CleanupFn.free)]

/-! ## Lemmas on the registry loops -/

theorem store_some (l : List AC_Entry) (c cap i : Nat) (e : AC_Entry) (h : i < l.length) :
    Registry.store ⟨some l, c, cap⟩ i e = some ⟨some (l.set i e), c, cap⟩ := by
  simp [Registry.store, h]

/-- The inner loop of `AC_Remove`, pointwise: slots `j .. c-2` receive their right neighbour. -/
theorem shiftDown_spec (fuel : Nat) : ∀ (j c cap : Nat) (l : List AC_Entry),
    c ≤ l.length → c ≤ fuel + j + 1 →
    ∃ r, shiftDown (fuel + 1) j ⟨some l, c, cap⟩ = some ⟨some r, c, cap⟩ ∧ r.length = l.length ∧
      ∀ k, r[k]? = if j ≤ k ∧ k + 1 < c then l[k + 1]? else l[k]? := by
  induction fuel with
  | zero =>
    intro j c cap l hc hf
    refine ⟨l, ?_, rfl, ?_⟩
    · have : ¬ (j + 1 < c) := by omega
      simp [shiftDown, this]
    · intro k
      have : ¬ (j ≤ k ∧ k + 1 < c) := by omega
      simp [this]
  | succ fuel ih =>
    intro j c cap l hc hf
    by_cases hj : j + 1 < c
    · have h1 : j + 1 < l.length := by omega
      have h0 : j < l.length := by omega
      obtain ⟨r, hr, hlen, hget⟩ := ih (j + 1) c cap (l.set j l[j + 1]) (by simpa using hc) (by omega)
      refine ⟨r, ?_, by simpa using hlen, ?_⟩
      · rw [shiftDown]
        simp only [hj, if_true, Registry.load, List.getElem?_eq_getElem h1]
        rw [store_some _ _ _ _ _ h0]
        exact hr
      · intro k
        rw [hget k]
        by_cases hk : j + 1 ≤ k ∧ k + 1 < c
        · have : j ≤ k ∧ k + 1 < c := by omega
          simp only [hk, this, and_self, if_true]
          rw [List.getElem?_set_ne (by omega)]
        · simp only [hk, if_false]
          by_cases hkj : k = j
          · subst hkj
            have : k ≤ k ∧ k + 1 < c := by omega
            simp only [this, and_self, if_true]
            rw [List.getElem?_set_self h0, List.getElem?_eq_getElem h1]
          · have : ¬ (j ≤ k ∧ k + 1 < c) := by omega
            simp only [this, if_false]
            rw [List.getElem?_set_ne (by omega)]
    · refine ⟨l, ?_, rfl, ?_⟩
      · simp [shiftDown, hj]
      · intro k
        have : ¬ (j ≤ k ∧ k + 1 < c) := by omega
        simp [this]

/-- After the shift, the first `c - 1` slots are the old first `c` slots without slot `i`. -/
theorem shifted_take (l r : List AC_Entry) (i c : Nat) (hi : i < c) (hc : c ≤ l.length)
    (hlen : r.length = l.length)
    (hget : ∀ k, r[k]? = if i ≤ k ∧ k + 1 < c then l[k + 1]? else l[k]?) :
    r.take (c - 1) = l.take i ++ (l.take c).drop (i + 1) := by
  apply List.ext_getElem?
  intro k
  rw [List.getElem?_take, List.getElem?_append, hget k]
  simp only [List.length_take, List.getElem?_take, List.getElem?_drop]
  have hmin : min i l.length = i := by omega
  rw [hmin]
  by_cases h1 : k < i
  · have h2 : k < c - 1 := by omega
    have h3 : ¬ (i ≤ k ∧ k + 1 < c) := by omega
    simp [h1, h2, h3]
  · by_cases h2 : k < c - 1
    · have h3 : i ≤ k ∧ k + 1 < c := by omega
      have h4 : i + 1 + (k - i) = k + 1 := by omega
      have h5 : k + 1 < c := by omega
      simp [h1, h2, h3, h4, h5]
    · have h4 : i + 1 + (k - i) = k + 1 := by omega
      have h5 : ¬ (k + 1 < c) := by omega
      simp [h1, h2, h4, h5]

/-- The search loop of `AC_Remove` from index `i`, on a block that holds all `c` entries. -/
theorem removeLoop_spec (h : Nat) (l : List AC_Entry) (c cap : Nat) (hc : c ≤ l.length) :
    ∀ (n i : Nat), i + n = c →
      match firstMatch h ((l.take c).drop i) with
      | none => removeLoop h (n + 1) i ⟨some l, c, cap⟩ = some ⟨0, [], ⟨some l, c, cap⟩⟩
      | some e => ∃ r, removeLoop h (n + 1) i ⟨some l, c, cap⟩
            = some ⟨1, releaseCall e, ⟨some r, c - 1, cap⟩⟩ ∧ r.length = l.length ∧
          r.take (c - 1) = l.take i ++ deleteFirst h ((l.take c).drop i) := by
  intro n
  induction n with
  | zero =>
    intro i hi
    have : (l.take c).drop i = [] := by
      apply List.drop_eq_nil_of_le; simp; omega
    simp [this, firstMatch, removeLoop]
    omega
  | succ n ih =>
    intro i hi
    have hic : i < c := by omega
    have hil : i < l.length := by omega
    have hdrop : (l.take c).drop i = l[i] :: (l.take c).drop (i + 1) := by
      rw [List.drop_eq_getElem_cons (by simp; omega)]
      simp
    rw [hdrop]
    by_cases hp : l[i].ptr = h
    · simp only [firstMatch, List.find?_cons, hp, decide_True]
      obtain ⟨r, hr, hlen, hget⟩ := shiftDown_spec c i c cap l hc (by omega)
      refine ⟨r, ?_, hlen, ?_⟩
      · rw [removeLoop]
        simp only [hic, if_true, Registry.load, List.getElem?_eq_getElem hil, hp, hr]
      · rw [shifted_take l r i c hic hc hlen hget]
        simp [deleteFirst, hp]
    · have := ih (i + 1) (by omega)
      simp only [firstMatch, List.find?_cons, hp, decide_False]
      simp only [firstMatch] at this
      have hstep : removeLoop h (n + 1 + 1) i ⟨some l, c, cap⟩
          = removeLoop h (n + 1) (i + 1) ⟨some l, c, cap⟩ := by
        rw [removeLoop]
        simp only [hic, if_true, Registry.load, List.getElem?_eq_getElem hil, hp, if_false]
      rw [hstep]
      have htake : l.take i ++ deleteFirst h (l[i] :: (l.take c).drop (i + 1))
          = l.take (i + 1) ++ deleteFirst h ((l.take c).drop (i + 1)) := by
        rw [List.take_succ, List.getElem?_eq_getElem hil]
        simp only [deleteFirst, hp, if_false, Option.toList, List.append_assoc,
          List.singleton_append]
      rw [htake]
      exact this

theorem lifoTrace_eq_flatMap (es : List AC_Entry) :
    lifoTrace es = es.reverse.flatMap cleanupCall := by
  unfold lifoTrace
  induction es.reverse with
  | nil => rfl
  | cons e xs ih =>
    rw [List.flatMap_cons, ← ih]
    cases e with
    | mk p f =>
      cases f with
      | none => simp [List.filter_cons, AC_Entry.present, cleanupCall, releaseCall]
      | some f =>
        by_cases hp : p = 0
        · simp [List.filter_cons, AC_Entry.present, cleanupCall, hp]
        · simp [List.filter_cons, AC_Entry.present, cleanupCall, releaseCall, hp,
            AC_Entry.invocation]

/-- The loop of `AC_CleanupAll` entered at index `k - 1` visits slots `k-1, ..., 0`. -/
theorem cleanupLoop_spec (l : List AC_Entry) (c cap : Nat) :
    ∀ (k fuel : Nat), k ≤ l.length → k < fuel →
      cleanupLoop fuel ((k : Int) - 1) ⟨some l, c, cap⟩
        = some ((l.take k).reverse.flatMap cleanupCall) := by
  intro k
  induction k with
  | zero =>
    intro fuel _ hf
    obtain ⟨f, rfl⟩ : ∃ f, fuel = f + 1 := ⟨fuel - 1, by omega⟩
    simp [cleanupLoop]
  | succ k ih =>
    intro fuel hk hf
    obtain ⟨f, rfl⟩ : ∃ f, fuel = f + 1 := ⟨fuel - 1, by omega⟩
    have hkl : k < l.length := by omega
    have h1 : ((k + 1 : Nat) : Int) - 1 = (k : Int) := by omega
    have h2 : ((k + 1 : Nat) : Int) - 1 - 1 = (k : Int) - 1 := by omega
    rw [cleanupLoop]
    have hge : ((k + 1 : Nat) : Int) - 1 ≥ 0 := by omega
    simp only [hge, if_true, h2]
    rw [ih f (by omega) (by omega)]
    simp only [h1, Int.toNat_ofNat, Registry.load, List.getElem?_eq_getElem hkl]
    rw [List.take_succ, List.getElem?_eq_getElem hkl]
    simp only [Option.toList, List.reverse_append, List.reverse_cons, List.reverse_nil,
      List.nil_append, List.singleton_append, List.flatMap_cons]

/-- Full cleanup of a valid registry: the LIFO trace, count reset, storage kept. -/
theorem cleanupAll_spec (s : Registry) (hv : s.valid) :
    AC_CleanupAll s = some ⟨(), lifoTrace s.entries, { s with cleanup_count := 0 }⟩ := by
  obtain ⟨cl, c, cap⟩ := s
  cases cl with
  | none =>
    have hc : c = 0 := by
      simp [Registry.valid, Registry.slots] at hv; exact hv
    subst hc
    simp [AC_CleanupAll, cleanupLoop, Registry.entries, lifoTrace]
  | some l =>
    have hc : c ≤ l.length := by simpa [Registry.valid, Registry.slots] using hv
    simp only [AC_CleanupAll]
    rw [cleanupLoop_spec l c cap c (c + 1) hc (by omega)]
    simp [Registry.entries, lifoTrace_eq_flatMap]

/-- Removal from a valid registry, by whether the handle is registered. -/
theorem remove_spec (h : Nat) (s : Registry) (hv : s.valid) :
    match firstMatch h s.entries with
    | none => AC_Remove h s = some ⟨0, [], s⟩
    | some e => ∃ o, AC_Remove h s = some o ∧ o.ret = 1 ∧ o.trace = releaseCall e ∧
        o.reg.entries = deleteFirst h s.entries ∧
        o.reg.cleanup_count = s.cleanup_count - 1 ∧
        o.reg.cleanup_capacity = s.cleanup_capacity ∧ o.reg.slots = s.slots := by
  obtain ⟨cl, c, cap⟩ := s
  cases cl with
  | none =>
    have hc : c = 0 := by
      simp [Registry.valid, Registry.slots] at hv; exact hv
    subst hc
    simp [AC_Remove, removeLoop, Registry.entries, firstMatch]
  | some l =>
    have hc : c ≤ l.length := by simpa [Registry.valid, Registry.slots] using hv
    have key := removeLoop_spec h l c cap hc c 0 (by omega)
    simp only [List.drop_zero, List.take_zero, List.nil_append] at key
    simp only [Registry.entries, AC_Remove]
    cases hfm : firstMatch h (l.take c) with
    | none =>
      rw [hfm] at key
      exact key
    | some e =>
      rw [hfm] at key
      obtain ⟨r, hr, hlen, htake⟩ := key
      exact ⟨_, hr, rfl, rfl, by simpa [Registry.entries] using htake, rfl, rfl,
        by simpa [Registry.slots] using hlen⟩

theorem firstMatch_none_iff (h : Nat) (es : List AC_Entry) :
    firstMatch h es = none ↔ ¬ registered h es := by
  simp [firstMatch, registered]

theorem consistent_valid (s : Registry) (hc : s.consistent) : s.valid := by
  obtain ⟨cl, c, cap⟩ := s
  obtain ⟨h1, h2, h3⟩ := hc
  cases cl with
  | none => simp at h2; simp [Registry.valid, h2.1]
  | some l =>
    have := (h3 (by simp)).1
    simp only [Registry.valid, Registry.slots] at *
    omega

theorem consistent_init : Registry.init.consistent := by
  simp [Registry.consistent, Registry.init]

theorem reallocBlock_length (old : List AC_Entry) (n : Nat) (junk : Nat → AC_Entry) :
    (reallocBlock old n junk).length = n := by
  simp [reallocBlock]

theorem reallocBlock_take (old : List AC_Entry) (n c : Nat) (junk : Nat → AC_Entry)
    (h1 : c ≤ old.length) (h2 : c ≤ n) :
    (reallocBlock old n junk).take c = old.take c := by
  apply List.ext_getElem?
  intro k
  simp only [List.getElem?_take, reallocBlock, List.getElem?_map]
  by_cases hk : k < c
  · have hkn : k < n := by omega
    have hko : k < old.length := by omega
    simp [hk, List.getElem?_range hkn, List.getElem?_eq_getElem hko]
  · simp [hk]

/-- What `ac_ensure_capacity` does to a consistent registry, whatever the heap answers. -/
theorem ensure_capacity_spec (heap : Heap) (s : Registry) (hc : s.consistent) :
    (ac_ensure_capacity heap s).2.consistent ∧
    (ac_ensure_capacity heap s).2.cleanup_count = s.cleanup_count ∧
    (ac_ensure_capacity heap s).2.entries = s.entries ∧
    ((ac_ensure_capacity heap s).2.cleanup_capacity = s.cleanup_capacity ∨
      (ac_ensure_capacity heap s).2.cleanup_capacity = INITIAL_LIST_SIZE ∨
      (ac_ensure_capacity heap s).2.cleanup_capacity = s.cleanup_capacity * 2) ∧
    s.cleanup_capacity ≤ (ac_ensure_capacity heap s).2.cleanup_capacity ∧
    ((ac_ensure_capacity heap s).1 = 0 ∨ (ac_ensure_capacity heap s).1 = 1) ∧
    ((ac_ensure_capacity heap s).1 ≠ 0 →
      (ac_ensure_capacity heap s).2.cleanup_list ≠ none ∧
      (ac_ensure_capacity heap s).2.cleanup_count < (ac_ensure_capacity heap s).2.cleanup_capacity) ∧
    (heap.isSome → (ac_ensure_capacity heap s).1 ≠ 0) := by
  obtain ⟨cl, c, cap⟩ := s
  obtain ⟨h1, h2, h3⟩ := hc
  cases cl with
  | none =>
    have hc0 : c = 0 := by simpa using (h2 rfl).1
    have hcap : cap = 0 ∨ cap = INITIAL_LIST_SIZE := by simpa using (h2 rfl).2
    subst hc0
    cases heap with
    | none =>
      simp [ac_ensure_capacity, Registry.consistent, Registry.entries]
      rcases hcap with h | h <;> simp [h, INITIAL_LIST_SIZE]
    | some junk =>
      simp [ac_ensure_capacity, Registry.consistent, Registry.entries,
        Registry.slots, mallocBlock]
      rcases hcap with h | h <;> simp [h, INITIAL_LIST_SIZE]
  | some l =>
    have hl := h3 (by simp)
    simp only [Registry.slots] at hl
    dsimp only at h1
    by_cases hfull : c ≥ cap
    · cases heap with
      | none =>
        simp [ac_ensure_capacity, hfull, Registry.consistent, Registry.entries, Registry.slots]
        omega
      | some junk =>
        simp only [ac_ensure_capacity, hfull, if_true, Registry.consistent, Registry.entries,
          Registry.slots, reallocBlock_length]
        rw [reallocBlock_take l (cap * 2) c junk (by omega) (by omega)]
        simp
        omega
    · simp only [ac_ensure_capacity, hfull, if_false, Registry.consistent, Registry.entries,
        Registry.slots]
      simp
      omega

theorem set_take_succ (l : List AC_Entry) (c : Nat) (e : AC_Entry) (h : c < l.length) :
    (l.set c e).take (c + 1) = l.take c ++ [e] := by
  apply List.ext_getElem?
  intro k
  simp only [List.getElem?_take, List.getElem?_append, List.getElem?_set, List.length_take]
  have hmin : min c l.length = c := by omega
  rw [hmin]
  by_cases h1 : k < c
  · have : ¬ (c = k) := by omega
    have : k < c + 1 := by omega
    simp [*]
  · by_cases h2 : k = c
    · subst h2; simp [h]
    · have h3 : ¬ (k < c + 1) := by omega
      have h4 : ¬ (c = k) := by omega
      have h5 : k - c ≠ 0 := by omega
      simp [h1, h3, h4]
      omega

/-- The append step shared by `AC_Register` and `AC_Alloc`: a store at index
`cleanup_count` of a block with room, then the increment. -/
theorem store_append (s : Registry) (e : AC_Entry) (hc : s.consistent)
    (hl : s.cleanup_list ≠ none) (hlt : s.cleanup_count < s.cleanup_capacity) :
    ∃ s2, s.store s.cleanup_count e = some s2 ∧
      ({ s2 with cleanup_count := s.cleanup_count + 1 } : Registry).consistent ∧
      ({ s2 with cleanup_count := s.cleanup_count + 1 } : Registry).entries = s.entries ++ [e] ∧
      s2.cleanup_capacity = s.cleanup_capacity := by
  obtain ⟨cl, c, cap⟩ := s
  cases cl with
  | none => simp at hl
  | some l =>
    have h3 := hc.2.2 (by simp)
    simp only [Registry.slots] at h3
    have hcl : c < l.length := by simp only at hlt; omega
    refine ⟨_, store_some l c cap c e hcl, ?_, ?_, rfl⟩
    · simp only [Registry.consistent, Registry.slots, List.length_set]
      simp
      simp only at hlt
      omega
    · simp only [Registry.entries]
      exact set_take_succ l c e hcl

/-- One registration on a consistent registry, whatever the heap answers. -/
theorem register_spec (heap : Heap) (p : Nat) (f : Option CleanupFn) (s : Registry)
    (hc : s.consistent) :
    ∃ o, AC_Register heap p f s = some o ∧ o.trace = [] ∧ o.reg.consistent ∧
      (o.reg.cleanup_capacity = s.cleanup_capacity ∨
        o.reg.cleanup_capacity = INITIAL_LIST_SIZE ∨
        o.reg.cleanup_capacity = s.cleanup_capacity * 2) ∧
      ((o.reg.entries = s.entries ∧ o.reg.cleanup_count = s.cleanup_count) ∨
       (o.reg.entries = s.entries ++ [⟨p, f⟩] ∧ o.reg.cleanup_count = s.cleanup_count + 1)) ∧
      s.cleanup_capacity ≤ o.reg.cleanup_capacity ∧
      (heap.isSome → o.reg.entries = s.entries ++ [⟨p, f⟩] ∧
        o.reg.cleanup_count = s.cleanup_count + 1) := by
  obtain ⟨e1, e2, e3, e4, e4', e5, e6, e7⟩ := ensure_capacity_spec heap s hc
  by_cases h0 : (ac_ensure_capacity heap s).1 = 0
  · refine ⟨⟨(), [], (ac_ensure_capacity heap s).2⟩, ?_, rfl, e1, e4, Or.inl ⟨e3, e2⟩, e4', ?_⟩
    · simp [AC_Register, h0]
    · intro hh; exact absurd h0 (e7 hh)
  · obtain ⟨hl, hlt⟩ := e6 h0
    obtain ⟨s2, hs2, k1, k2, k3⟩ := store_append _ ⟨p, f⟩ e1 hl hlt
    refine ⟨⟨(), [], { s2 with cleanup_count := (ac_ensure_capacity heap s).2.cleanup_count + 1 }⟩,
      ?_, rfl, k1, ?_, Or.inr ⟨?_, ?_⟩, ?_, fun _ => ⟨?_, ?_⟩⟩
    · simp [AC_Register, h0, hs2]
    · simp only [k3]; exact e4
    · rw [← e3]; exact k2
    · simp only [e2]
    · simp only [k3]; exact e4'
    · rw [← e3]; exact k2
    · simp only [e2]

/-- A run of registrations whose allocations all succeed appends every entry, in order. -/
theorem registerAll_spec (calls : List (Heap × AC_Entry)) :
    ∀ (s : Registry), s.consistent → (∀ c ∈ calls, c.1.isSome) →
      ∃ s1, registerAll calls s = some s1 ∧ s1.consistent ∧
        s1.entries = s.entries ++ calls.map (fun c => c.2) ∧
        s1.cleanup_count = s.cleanup_count + calls.length := by
  induction calls with
  | nil =>
    intro s hc _
    exact ⟨s, rfl, hc, by simp, by simp⟩
  | cons c cs ih =>
    intro s hc hall
    obtain ⟨o, ho, _, hoc, _, _, _, happ⟩ := register_spec c.1 c.2.ptr c.2.fn s hc
    obtain ⟨hent, hcnt⟩ := happ (hall c (List.mem_cons_self _ _))
    obtain ⟨s1, hs1, hc1, hent1, hcnt1⟩ :=
      ih o.reg hoc (fun d hd => hall d (List.mem_cons_of_mem _ hd))
    refine ⟨s1, ?_, hc1, ?_, ?_⟩
    · simp only [registerAll, ho, hs1]
    · rw [hent1, hent]; simp
    · rw [hcnt1, hcnt]; simp; omega

theorem entries_init : Registry.init.entries = [] := rfl

/-- An empty registry has the empty entry sequence, whatever its block holds. -/
theorem entries_of_count_zero (s : Registry) (h : s.cleanup_count = 0) : s.entries = [] := by
  unfold Registry.entries
  cases s.cleanup_list with
  | none => rfl
  | some l => simp [h]

/-- Every event of a LIFO trace is the action of a present entry on that entry's handle. -/
theorem mem_lifoTrace (es : List AC_Entry) (ev : Event) (h : ev ∈ lifoTrace es) :
    ∃ e ∈ es, e.ptr ≠ 0 ∧ ∃ f, e.fn = some f ∧ ev = Event.call f e.ptr := by
  simp only [lifoTrace, List.mem_filterMap, List.mem_filter, List.mem_reverse] at h
  obtain ⟨e, ⟨hmem, hp⟩, hinv⟩ := h
  refine ⟨e, hmem, ?_, ?_⟩
  · simp only [AC_Entry.present, Bool.and_eq_true, bne_iff_ne] at hp
    exact hp.1
  · cases hf : e.fn with
    | none => simp [AC_Entry.invocation, hf] at hinv
    | some f =>
      simp only [AC_Entry.invocation, hf, Option.map_some', Option.some.injEq] at hinv
      exact ⟨f, rfl, hinv.symm⟩

/-- When every entry is present, the LIFO trace is one invocation per entry, reversed. -/
theorem lifoTrace_all_present (es : List AC_Entry) (hp : ∀ e ∈ es, e.present = true) :
    (lifoTrace es).map some = es.reverse.map AC_Entry.invocation := by
  unfold lifoTrace
  have hp' : ∀ e ∈ es.reverse, e.present = true := fun e he => hp e (List.mem_reverse.mp he)
  generalize es.reverse = xs at hp'
  induction xs with
  | nil => rfl
  | cons e xs ih =>
    have he := hp' e (List.mem_cons_self _ _)
    have hx := ih (fun d hd => hp' d (List.mem_cons_of_mem _ hd))
    rw [List.filter_cons_of_pos he]
    cases hf : e.fn with
    | none => simp [AC_Entry.present, hf] at he
    | some f =>
      simp only [List.filterMap_cons, AC_Entry.invocation, hf, Option.map_some',
        List.map_cons, hx]

/-- Decomposition of an entry sequence around the first entry with handle `h`. -/
theorem split_first_match (h : Nat) (es : List AC_Entry) (hreg : registered h es) :
    ∃ pre e post, es = pre ++ e :: post ∧ e.ptr = h ∧ (∀ x ∈ pre, x.ptr ≠ h) ∧
      firstMatch h es = some e ∧ deleteFirst h es = pre ++ post := by
  induction es with
  | nil => simp [registered] at hreg
  | cons a as ih =>
    by_cases ha : a.ptr = h
    · exact ⟨[], a, as, rfl, ha, by simp, by simp [firstMatch, ha], by simp [deleteFirst, ha]⟩
    · have hreg' : registered h as := by
        obtain ⟨e, he, hp⟩ := hreg
        rcases List.mem_cons.mp he with rfl | he'
        · exact absurd hp ha
        · exact ⟨e, he', hp⟩
      obtain ⟨pre, e, post, h1, h2, h3, h4, h5⟩ := ih hreg'
      refine ⟨a :: pre, e, post, by simp [h1], h2, ?_, ?_, ?_⟩
      · intro x hx
        rcases List.mem_cons.mp hx with rfl | hx'
        · exact ha
        · exact h3 x hx'
      · simpa [firstMatch, ha] using h4
      · simp [deleteFirst, ha, h5]

/-- `AC_Alloc` on a consistent registry, whatever `malloc` and the heap answer. -/
theorem alloc_spec (p : Nat) (heap : Heap) (size : Nat) (s : Registry) (hc : s.consistent) :
    ∃ o, AC_Alloc p heap size s = some o ∧ o.reg.consistent ∧
      (o.reg.cleanup_capacity = s.cleanup_capacity ∨
        o.reg.cleanup_capacity = INITIAL_LIST_SIZE ∨
        o.reg.cleanup_capacity = s.cleanup_capacity * 2) ∧
      s.cleanup_capacity ≤ o.reg.cleanup_capacity := by
  by_cases hp : p = 0
  · exact ⟨⟨0, [Event.stderr (allocFailedMsg size)], s⟩, by simp [AC_Alloc, hp], hc,
      Or.inl rfl, Nat.le_refl _⟩
  · obtain ⟨e1, e2, e3, e4, e4', e5, e6, e7⟩ := ensure_capacity_spec heap s hc
    by_cases h0 : (ac_ensure_capacity heap s).1 = 0
    · exact ⟨⟨0, [Event.call CleanupFn.free p], (ac_ensure_capacity heap s).2⟩,
        by simp [AC_Alloc, hp, h0], e1, e4, e4'⟩
    · obtain ⟨hl, hlt⟩ := e6 h0
      obtain ⟨s2, hs2, k1, k2, k3⟩ := store_append _ ⟨p, some CleanupFn.free⟩ e1 hl hlt
      refine ⟨⟨p, [], { s2 with cleanup_count := (ac_ensure_capacity heap s).2.cleanup_count + 1 }⟩,
        ?_, k1, ?_, ?_⟩
      · simp [AC_Alloc, hp, h0, hs2]
      · simp only [k3]; exact e4
      · simp only [k3]; exact e4'

/-- Any single operation keeps a consistent registry consistent, is defined on it, and
leaves the capacity as it was, at the initial size, or doubled. -/
theorem step_spec (op : Op) (s : Registry) (hc : s.consistent) :
    ∃ s1, op.step s = some s1 ∧ s1.consistent ∧
      (s1.cleanup_capacity = s.cleanup_capacity ∨
        s1.cleanup_capacity = INITIAL_LIST_SIZE ∨
        s1.cleanup_capacity = s.cleanup_capacity * 2) ∧
      s.cleanup_capacity ≤ s1.cleanup_capacity := by
  cases op with
  | alloc p heap size =>
    obtain ⟨o, ho, h1, h2, h3⟩ := alloc_spec p heap size s hc
    exact ⟨o.reg, by simp [Op.step, ho], h1, h2, h3⟩
  | register heap p f =>
    obtain ⟨o, ho, _, h1, h2, _, h3, _⟩ := register_spec heap p f s hc
    exact ⟨o.reg, by simp [Op.step, ho], h1, h2, h3⟩
  | remove p =>
    have key := remove_spec p s (consistent_valid s hc)
    cases hfm : firstMatch p s.entries with
    | none =>
      rw [hfm] at key
      exact ⟨s, by simp [Op.step, key], hc, Or.inl rfl, Nat.le_refl _⟩
    | some e =>
      rw [hfm] at key
      obtain ⟨o, ho, _, _, _, hcnt, hcap, hslots⟩ := key
      refine ⟨o.reg, by simp [Op.step, ho], ?_, Or.inl hcap, by omega⟩
      have hne : s.cleanup_list ≠ none := by
        intro hn
        simp [Registry.entries, hn, firstMatch] at hfm
      obtain ⟨c1, _, c3⟩ := hc
      have c3' := c3 hne
      have hne' : o.reg.cleanup_list ≠ none := by
        intro hn
        have : o.reg.slots = 0 := by simp [Registry.slots, hn]
        omega
      refine ⟨by omega, fun hn => absurd hn hne', fun _ => ⟨by omega, by omega⟩⟩
  | cleanupAll =>
    have key := cleanupAll_spec s (consistent_valid s hc)
    refine ⟨{ s with cleanup_count := 0 }, by simp [Op.step, key], ?_, Or.inl rfl, Nat.le_refl _⟩
    obtain ⟨c1, c2, c3⟩ := hc
    refine ⟨Nat.zero_le _, fun hn => ⟨rfl, (c2 hn).2⟩, fun hn => ?_⟩
    exact c3 hn

/-- Every sequence of operations from the initial registry is defined and ends in a
consistent registry. -/
theorem runOps_consistent (ops : List Op) :
    ∀ (s : Registry), s.consistent → ∃ s1, runOps ops s = some s1 ∧ s1.consistent := by
  induction ops with
  | nil => intro s hc; exact ⟨s, rfl, hc⟩
  | cons op ops ih =>
    intro s hc
    obtain ⟨s1, hs1, hc1, _, _⟩ := step_spec op s hc
    obtain ⟨s2, hs2, hc2⟩ := ih s1 hc1
    exact ⟨s2, by simp [runOps, hs1, hs2], hc2⟩

theorem registerAll_append (xs ys : List (Heap × AC_Entry)) :
    ∀ (s : Registry), registerAll (xs ++ ys) s = (registerAll xs s).bind (registerAll ys) := by
  induction xs with
  | nil => intro s; rfl
  | cons c cs ih =>
    intro s
    simp only [List.cons_append, registerAll]
    cases AC_Register c.1 c.2.ptr c.2.fn s with
    | none => rfl
    | some o => exact ih o.reg

/-! ## Lemmas on the ring log -/

theorem truncated_length_le (msg : List Char) : (truncated msg).length ≤ 127 := by
  simp [truncated, ASYNC_LOG_MSG_SIZE, List.length_take]

theorem truncated_length (msg : List Char) :
    (truncated msg).length = min (cstr msg).length 127 := by
  simp [truncated, ASYNC_LOG_MSG_SIZE, List.length_take, Nat.min_comm]

theorem truncated_no_nul (msg : List Char) : ∀ c ∈ truncated msg, c ≠ NUL := by
  intro c hc
  have h1 : c ∈ cstr msg := List.mem_of_mem_take hc
  have h2 := List.mem_takeWhile_imp h1
  simpa using h2

theorem cstr_append_nul (t rest : List Char) (ht : ∀ c ∈ t, c ≠ NUL) :
    cstr (t ++ NUL :: rest) = t := by
  unfold cstr
  rw [List.takeWhile_append_of_pos (by intro a ha; simpa using ht a ha)]
  simp

/-- The slot that `AsyncLogPush` leaves: the truncated message, then terminators to the
end of the slot. -/
theorem written_slot (slot msg : List Char) (hs : slot.length = 128) :
    (strncpy slot msg (ASYNC_LOG_MSG_SIZE - 1)).set (ASYNC_LOG_MSG_SIZE - 1) NUL
      = truncated msg ++ List.replicate (128 - (truncated msg).length) NUL := by
  have hle := truncated_length_le msg
  have htr : (cstr msg).take 127 = truncated msg := rfl
  apply List.ext_getElem?
  intro k
  simp only [ASYNC_LOG_MSG_SIZE, strncpy, Nat.add_one_sub_one, htr, List.getElem?_set,
    List.getElem?_append, List.length_append, List.length_replicate, List.getElem?_replicate,
    List.length_drop, List.getElem?_drop, hs]
  have e1 : (truncated msg).length + (127 - (truncated msg).length) = 127 := by omega
  rw [e1]
  by_cases h1 : k < (truncated msg).length
  · have : ¬ (127 = k) := by omega
    have h2 : k < 127 := by omega
    have h3 : ¬ (127 ≤ k) := by omega
    simp [h1, h2, h3, this]
  · by_cases h2 : k < 127
    · have h3 : ¬ (127 = k) := by omega
      have h4 : k - (truncated msg).length < 127 - (truncated msg).length := by omega
      have h5 : k - (truncated msg).length < 128 - (truncated msg).length := by omega
      simp [h1, h2, h3, h4, h5]
    · by_cases h3 : k = 127
      · subst h3
        have h5 : 127 - (truncated msg).length < 128 - (truncated msg).length := by omega
        simp [h1, h5]
      · have h4 : ¬ (127 = k) := by omega
        have h5 : ¬ (k - (truncated msg).length < 128 - (truncated msg).length) := by omega
        have h6 : 127 + (k - 127) = k := by omega
        have h7 : slot[k]? = none := List.getElem?_eq_none (by omega)
        simp [h1, h2, h4, h5, h6, h7]

theorem written_slot_props (slot msg : List Char) (hs : slot.length = 128) :
    ((strncpy slot msg (ASYNC_LOG_MSG_SIZE - 1)).set (ASYNC_LOG_MSG_SIZE - 1) NUL).length = 128 ∧
    NUL ∈ (strncpy slot msg (ASYNC_LOG_MSG_SIZE - 1)).set (ASYNC_LOG_MSG_SIZE - 1) NUL ∧
    cstr ((strncpy slot msg (ASYNC_LOG_MSG_SIZE - 1)).set (ASYNC_LOG_MSG_SIZE - 1) NUL)
      = truncated msg ∧
    ((strncpy slot msg (ASYNC_LOG_MSG_SIZE - 1)).set (ASYNC_LOG_MSG_SIZE - 1) NUL).take
      ((truncated msg).length + 1) = truncated msg ++ [NUL] := by
  have hle := truncated_length_le msg
  rw [written_slot slot msg hs]
  obtain ⟨n, hn⟩ : ∃ n, 128 - (truncated msg).length = n + 1 :=
    ⟨127 - (truncated msg).length, by omega⟩
  rw [hn, List.replicate_succ]
  refine ⟨by simp; omega, by simp, cstr_append_nul _ _ (truncated_no_nul msg), ?_⟩
  rw [List.take_append_eq_append_take]
  simp

/-- One push into a shaped log whose head is in range. -/
theorem push_spec (al : AsyncLog) (msg : List Char) (hh : al.head < 64) (hs : al.shaped) :
    ∃ slot, al.buffer[al.head]? = some slot ∧ slot.length = 128 ∧
      AsyncLogPush al msg = some
        { buffer := al.buffer.set al.head
            ((strncpy slot msg (ASYNC_LOG_MSG_SIZE - 1)).set (ASYNC_LOG_MSG_SIZE - 1) NUL),
          head := (al.head + 1) % 64,
          tail := if (al.head + 1) % 64 = al.tail then (al.tail + 1) % 64 else al.tail } := by
  obtain ⟨hlen, hslots⟩ := hs
  simp only [ASYNC_LOG_CAPACITY] at hlen
  have hlt : al.head < al.buffer.length := by omega
  refine ⟨al.buffer[al.head], List.getElem?_eq_getElem hlt, hslots _ (List.getElem_mem hlt), ?_⟩
  unfold AsyncLogPush
  simp only [ASYNC_LOG_CAPACITY]
  by_cases hfull : (al.head + 1) % 64 = al.tail
  · simp [hfull, List.getElem?_eq_getElem hlt]
  · simp [hfull, List.getElem?_eq_getElem hlt]

/-- The flush loop from a tail that is `d` steps behind the head: it emits the `d` unread
slots in order and stops with the tail on the head. -/
theorem flushLoop_spec (buf : List (List Char)) (head : Nat) (hh : head < 64) :
    ∀ (d tail fuel : Nat), tail < 64 → d = (head + 64 - tail) % 64 → d < fuel →
      (∀ k, k < d → ∃ slot, buf[(tail + k) % 64]? = some slot ∧ NUL ∈ slot) →
      flushLoop fuel ⟨buf, head, tail⟩
        = some ((List.range d).map (fun k => line (cstr ((buf[(tail + k) % 64]?).getD []))),
            ⟨buf, head, head⟩) := by
  intro d
  induction d with
  | zero =>
    intro tail fuel ht hd hf _
    obtain ⟨f, rfl⟩ : ∃ f, fuel = f + 1 := ⟨fuel - 1, by omega⟩
    have heq : tail = head := by omega
    subst heq
    simp [flushLoop]
  | succ d ih =>
    intro tail fuel ht hd hf hslots
    obtain ⟨f, rfl⟩ : ∃ f, fuel = f + 1 := ⟨fuel - 1, by omega⟩
    have hne : tail ≠ head := by
      intro heq; subst heq; omega
    obtain ⟨slot, hslot, hnul⟩ := hslots 0 (by omega)
    have ht0 : (tail + 0) % 64 = tail := by omega
    rw [ht0] at hslot
    have hrec := ih ((tail + 1) % 64) f (by omega) (by omega) (by omega) (by
      intro k hk
      have := hslots (k + 1) (by omega)
      have hidx : ((tail + 1) % 64 + k) % 64 = (tail + (k + 1)) % 64 := by omega
      rw [hidx]; exact this)
    rw [flushLoop]
    simp only [hne, ne_eq, not_false_eq_true, if_true, hslot, printLine, hnul,
      ASYNC_LOG_CAPACITY, hrec]
    rw [List.range_succ_eq_map]
    simp only [List.map_cons, List.map_map, ht0, hslot, Option.getD_some, line]
    congr 3
    apply List.map_congr_left
    intro k _
    have hidx : ((tail + 1) % 64 + k) % 64 = (tail + (k + 1)) % 64 := by omega
    simp [Function.comp, hidx]

theorem pushAll_append (xs ys : List (List Char)) :
    ∀ (al : AsyncLog), pushAll (xs ++ ys) al = (pushAll xs al).bind (pushAll ys) := by
  induction xs with
  | nil => intro al; rfl
  | cons m ms ih =>
    intro al
    simp only [List.cons_append, pushAll]
    cases AsyncLogPush al m with
    | none => rfl
    | some al1 => exact ih al1

/-- The state after pushing `msgs` into a freshly initialised, shaped log: the head has
advanced once per message, the tail trails it by at most 63, and each of the last 64
messages sits, truncated and terminated, in the slot of its index modulo 64. -/
theorem pushAll_init_spec (al0 : AsyncLog) (hs : al0.shaped) (msgs : List (List Char)) :
    ∃ al, pushAll msgs (AsyncLogInit al0) = some al ∧ al.shaped ∧
      al.head = msgs.length % 64 ∧ al.tail = (msgs.length - 63) % 64 ∧
      ∀ i m, msgs[i]? = some m → msgs.length ≤ i + 64 →
        ∃ slot, al.buffer[i % 64]? = some slot ∧ NUL ∈ slot ∧ cstr slot = truncated m := by
  induction msgs using List.reverseRecOn with
  | nil =>
    refine ⟨AsyncLogInit al0, rfl, hs, rfl, rfl, ?_⟩
    intro i m hi
    simp at hi
  | append_singleton ms m ih =>
    obtain ⟨al, hal, hshape, hhead, htail, hslots⟩ := ih
    have hh : al.head < 64 := by omega
    obtain ⟨slot, hslot, hslen, hpush⟩ := push_spec al m hh hshape
    obtain ⟨w1, w2, w3, _⟩ := written_slot_props slot m hslen
    have hblen : al.buffer.length = 64 := hshape.1
    refine ⟨AsyncLog.mk
        (al.buffer.set al.head
          ((strncpy slot m (ASYNC_LOG_MSG_SIZE - 1)).set (ASYNC_LOG_MSG_SIZE - 1) NUL))
        ((al.head + 1) % 64)
        (if (al.head + 1) % 64 = al.tail then (al.tail + 1) % 64 else al.tail),
      ?_, ?_, ?_, ?_, ?_⟩
    · rw [pushAll_append, hal]
      show pushAll [m] al = _
      simp only [pushAll, hpush]
    · refine ⟨by simp [ASYNC_LOG_CAPACITY, hblen], ?_⟩
      intro x hx
      rcases List.mem_or_eq_of_mem_set hx with h | h
      · exact hshape.2 x h
      · simp only [ASYNC_LOG_MSG_SIZE]; rw [h]; exact w1
    · simp only [List.length_append, List.length_singleton, hhead]
      omega
    · simp only [List.length_append, List.length_singleton, hhead, htail]
      split <;> omega
    · intro i x hi hbound
      simp only [List.length_append, List.length_singleton] at hbound
      by_cases hlast : i = ms.length
      · subst hlast
        simp only [List.getElem?_append_right (Nat.le_refl _), Nat.sub_self,
          List.getElem?_cons_zero, Option.some.injEq] at hi
        subst hi
        refine ⟨_, ?_, w2, w3⟩
        rw [hhead]
        exact List.getElem?_set_self (by omega)
      · have hil : i < ms.length := by
          by_contra hge
          have : (ms ++ [m])[i]? = none := List.getElem?_eq_none (by simp; omega)
          rw [this] at hi
          exact absurd hi (by simp)
        rw [List.getElem?_append_left hil] at hi
        obtain ⟨s1, hs1, hn1, hc1⟩ := hslots i x hi (by omega)
        refine ⟨s1, ?_, hn1, hc1⟩
        rw [List.getElem?_set_ne (by omega)]
        exact hs1

/-- Flushing after pushing `msgs` into a freshly initialised log emits the last
`min n 63` messages, truncated, oldest first. -/
theorem push_then_flush (al0 : AsyncLog) (hs : al0.shaped) (msgs : List (List Char)) :
    ∃ al al2, pushAll msgs (AsyncLogInit al0) = some al ∧
      AsyncLogFlush al = some ((msgs.drop (msgs.length - 63)).map (fun m => line (truncated m)),
        al2) ∧ al2.tail = al2.head := by
  obtain ⟨al, hal, hshape, hhead, htail, hslots⟩ := pushAll_init_spec al0 hs msgs
  obtain ⟨buf, head, tail⟩ := al
  simp only at hhead htail hslots
  have hd : min msgs.length 63 = (head + 64 - tail) % 64 := by omega
  have hunread : ∀ k, k < min msgs.length 63 →
      ∃ slot, buf[(tail + k) % 64]? = some slot ∧ NUL ∈ slot ∧
        ∃ m, msgs[msgs.length - 63 + k]? = some m ∧ cstr slot = truncated m := by
    intro k hk
    have hi : msgs.length - 63 + k < msgs.length := by omega
    obtain ⟨slot, h1, h2, h3⟩ := hslots _ _ (List.getElem?_eq_getElem hi) (by omega)
    have hidx : (tail + k) % 64 = (msgs.length - 63 + k) % 64 := by omega
    exact ⟨slot, hidx ▸ h1, h2, _, List.getElem?_eq_getElem hi, h3⟩
  have hfl := flushLoop_spec buf head (by omega) (min msgs.length 63) tail 64 (by omega) hd
    (by omega) (fun k hk => by
      obtain ⟨slot, h1, h2, _⟩ := hunread k hk
      exact ⟨slot, h1, h2⟩)
  refine ⟨_, ⟨buf, head, head⟩, hal, ?_, rfl⟩
  simp only [AsyncLogFlush, ASYNC_LOG_CAPACITY, hfl]
  congr 2
  apply List.ext_getElem?
  intro k
  simp only [List.getElem?_map, List.getElem?_drop]
  by_cases hk : k < min msgs.length 63
  · obtain ⟨slot, h1, _, m, h4, h5⟩ := hunread k hk
    rw [List.getElem?_range hk, h4]
    simp [h1, h5]
  · rw [List.getElem?_eq_none (by simp; omega), List.getElem?_eq_none (by omega)]
    simp

/-! ## Claims on the cleanup registry -/

set_option maxRecDepth 100000

/-- C1 (amended): for every N and every sequence of N `AC_Register` calls with distinct
non-null handles and present actions, made on an empty registry (the initial one, one
emptied by a full cleanup with its block kept, or one left without a block by a failed
allocation) with every allocation succeeding, a following `AC_CleanupAll` fires exactly N
release actions, and the action of the i-th registered entry is the (N+1-i)-th to be
invoked, on its own handle. -/
theorem register_cleanup_reverse_order (s0 : Registry) (calls : List (Heap × AC_Entry))
    (hcons : s0.consistent) (hempty : s0.cleanup_count = 0)
    (halloc : ∀ c ∈ calls, c.1.isSome)
    (_hdistinct : (calls.map (fun c => c.2.ptr)).Nodup)
    (hpresent : ∀ c ∈ calls, c.2.ptr ≠ 0 ∧ c.2.fn.isSome) :
    ∃ s o, registerAll calls s0 = some s ∧ AC_CleanupAll s = some o ∧
      o.trace.length = calls.length ∧
      ∀ (i : Nat) (c : Heap × AC_Entry), calls[i]? = some c →
        ∃ f, c.2.fn = some f ∧
          o.trace[calls.length - 1 - i]? = some (Event.call f c.2.ptr) := by
  obtain ⟨s, hs, hc, hent, _⟩ := registerAll_spec calls s0 hcons halloc
  rw [entries_of_count_zero s0 hempty, List.nil_append] at hent
  have hcl := cleanupAll_spec s (consistent_valid s hc)
  have hall : ∀ e ∈ calls.map (fun c => c.2), e.present = true := by
    intro e he
    obtain ⟨c, hcm, rfl⟩ := List.mem_map.mp he
    have := hpresent c hcm
    simp [AC_Entry.present, this.1, this.2]
  have hmap := lifoTrace_all_present _ hall
  have hlen : (lifoTrace (calls.map (fun c => c.2))).length = calls.length := by
    have := congrArg List.length hmap
    simpa using this
  refine ⟨s, _, hs, hcl, ?_, ?_⟩
  · simp only [hent]; exact hlen
  · intro i c hi
    have hil : i < calls.length := by
      by_contra hge
      rw [List.getElem?_eq_none (by omega)] at hi
      exact absurd hi (by simp)
    obtain ⟨f, hf⟩ := Option.isSome_iff_exists.mp
      (hpresent c (List.mem_iff_getElem?.mpr ⟨i, hi⟩)).2
    refine ⟨f, hf, ?_⟩
    have hk := congrArg (fun l => l[calls.length - 1 - i]?) hmap
    simp only [List.getElem?_map] at hk
    rw [List.getElem?_reverse (by simp; omega)] at hk
    simp only [List.length_map, List.getElem?_map] at hk
    have hidx : calls.length - 1 - (calls.length - 1 - i) = i := by omega
    rw [hidx, hi] at hk
    simp only [Option.map_some', AC_Entry.invocation, hf] at hk
    simp only [hent]
    cases hx : (lifoTrace (calls.map (fun c => c.2)))[calls.length - 1 - i]? with
    | none => rw [hx] at hk; simp at hk
    | some ev =>
      rw [hx] at hk
      simp only [Option.map_some', Option.some.injEq] at hk
      rw [hk]

/-- Witness of C1 (amended): three registrations on the registry a full cleanup has
emptied, its block kept. -/
theorem register_cleanup_reverse_order_witness :
    (emptiedReg.consistent ∧ emptiedReg.cleanup_count = 0 ∧
      (∀ c ∈ threeCalls, c.1.isSome) ∧ (threeCalls.map (fun c => c.2.ptr)).Nodup ∧
      (∀ c ∈ threeCalls, c.2.ptr ≠ 0 ∧ c.2.fn.isSome)) ∧
    ∃ s o, registerAll threeCalls emptiedReg = some s ∧ AC_CleanupAll s = some o ∧
      o.trace.length = threeCalls.length ∧
      ∀ (i : Nat) (c : Heap × AC_Entry), threeCalls[i]? = some c →
        ∃ f, c.2.fn = some f ∧
          o.trace[threeCalls.length - 1 - i]? = some (Event.call f c.2.ptr) :=
  ⟨⟨by decide, by decide, by decide, by decide, by decide⟩,
    register_cleanup_reverse_order emptiedReg threeCalls (by decide) (by decide) (by decide)
      (by decide) (by decide)⟩

/-- C1 as stated fails: one `AC_Register` call whose handle is NULL and whose action is
present, on the empty registry with the allocation succeeding, is a sequence of N = 1 calls
with distinct handles; the entry is stored, and the following `AC_CleanupAll` fires no
action at all. -/
theorem null_handle_never_released :
    (nullHandleCall.map (fun c => c.2.ptr)).Nodup ∧
    (registerAll nullHandleCall Registry.init).map (fun s => (s.cleanup_count, s.entries))
      = some (1, [⟨0, some (CleanupFn.user 1)⟩]) ∧
    ((registerAll nullHandleCall Registry.init).bind AC_CleanupAll).map (fun o => o.trace)
      = some [] := by
  refine ⟨by decide, by decide, by decide⟩

/-- C3: for every registry state and handle h that occurs in it, `AC_Remove h` leaves the
entry sequence with only the first entry whose handle is h deleted: the entries before it
(none of which has handle h) and all entries after it, later duplicates of h included,
stay in order and contiguous, and the capacity is unchanged. -/
theorem remove_deletes_first_match (h : Nat) (s : Registry) (hv : s.valid)
    (hreg : registered h s.entries) :
    ∃ pre e post o, s.entries = pre ++ e :: post ∧ e.ptr = h ∧ (∀ x ∈ pre, x.ptr ≠ h) ∧
      AC_Remove h s = some o ∧ o.reg.entries = pre ++ post ∧
      o.reg.entries = deleteFirst h s.entries ∧
      o.reg.entries.length = o.reg.cleanup_count ∧
      o.reg.cleanup_capacity = s.cleanup_capacity := by
  obtain ⟨pre, e, post, hsplit, hep, hpre, hfm, hdel⟩ := split_first_match h s.entries hreg
  have key := remove_spec h s hv
  rw [hfm] at key
  obtain ⟨o, ho, _, _, hent, hcnt, hcap, hslots⟩ := key
  refine ⟨pre, e, post, o, hsplit, hep, hpre, ho, by rw [hent, hdel], hent, ?_, hcap⟩
  have hlen : s.entries.length = s.cleanup_count := by
    unfold Registry.entries Registry.valid Registry.slots at *
    cases hl : s.cleanup_list with
    | none => simp [hl] at hv ⊢; omega
    | some l => simp [hl] at hv ⊢; omega
  rw [hent, hdel, hcnt, ← hlen, hsplit]
  simp

/-- Witness of C3: handle 6 occurs in `smallReg`. -/
theorem remove_deletes_first_match_witness :
    (smallReg.valid ∧ registered 6 smallReg.entries) ∧
    ∃ pre e post o, smallReg.entries = pre ++ e :: post ∧ e.ptr = 6 ∧
      (∀ x ∈ pre, x.ptr ≠ 6) ∧
      AC_Remove 6 smallReg = some o ∧ o.reg.entries = pre ++ post ∧
      o.reg.entries = deleteFirst 6 smallReg.entries ∧
      o.reg.entries.length = o.reg.cleanup_count ∧
      o.reg.cleanup_capacity = smallReg.cleanup_capacity :=
  ⟨⟨by decide, by decide⟩, remove_deletes_first_match 6 smallReg (by decide) (by decide)⟩

/-- C4: for every registry state and every handle h that matches no entry, `AC_Remove h`
returns 0, invokes no release action, and leaves count, capacity and the storage (so the
entry sequence) unchanged. -/
theorem remove_unregistered (h : Nat) (s : Registry) (hv : s.valid)
    (hnot : ¬ registered h s.entries) :
    AC_Remove h s = some ⟨0, [], s⟩ := by
  have key := remove_spec h s hv
  rw [(firstMatch_none_iff h s.entries).mpr hnot] at key
  exact key

/-- Witness of C4: handle 9 matches no entry of `smallReg`. -/
theorem remove_unregistered_witness :
    (smallReg.valid ∧ ¬ registered 9 smallReg.entries) ∧
    AC_Remove 9 smallReg = some ⟨0, [], smallReg⟩ :=
  ⟨⟨by decide, by decide⟩, remove_unregistered 9 smallReg (by decide) (by decide)⟩

/-- C5: for every registry state, the invocations made by `AC_CleanupAll` are the reversed
entry sequence restricted to the entries whose handle and action are both present, each
action invoked once on its own handle; afterwards the count is zero, and the capacity and
the backing storage are unchanged. -/
theorem cleanupAll_lifo (s : Registry) (hv : s.valid) :
    ∃ o, AC_CleanupAll s = some o ∧
      o.trace = (s.entries.reverse.filter AC_Entry.present).filterMap AC_Entry.invocation ∧
      o.reg.cleanup_count = 0 ∧ o.reg.cleanup_capacity = s.cleanup_capacity ∧
      o.reg.cleanup_list = s.cleanup_list :=
  ⟨_, cleanupAll_spec s hv, rfl, rfl, rfl, rfl⟩

/-- Witness of C5 on `smallReg`. -/
theorem cleanupAll_lifo_witness :
    smallReg.valid ∧
    ∃ o, AC_CleanupAll smallReg = some o ∧
      o.trace = (smallReg.entries.reverse.filter AC_Entry.present).filterMap
        AC_Entry.invocation ∧
      o.reg.cleanup_count = 0 ∧ o.reg.cleanup_capacity = smallReg.cleanup_capacity ∧
      o.reg.cleanup_list = smallReg.cleanup_list :=
  ⟨by decide, cleanupAll_lifo smallReg (by decide)⟩

/-- C6 (amended): for every n, also beyond the initial capacity 1024, n consecutive
`AC_Register` calls on an empty registry (the initial one, one emptied by a full cleanup
with its block kept, or one left without a block by a failed allocation) with every
allocation and growth succeeding all take effect and preserve every entry: the count is
n, the entry sequence is the n registered (handle, action) pairs in registration order,
the state after the first k calls holds exactly the first k of them (so no later doubling
changes an earlier entry), and a full cleanup releases, in reverse order, exactly the
actions of the entries whose handle and action are both present: all n of them when
every handle and action is present. -/
theorem register_beyond_initial_capacity (s0 : Registry) (calls : List (Heap × AC_Entry))
    (hcons : s0.consistent) (hempty : s0.cleanup_count = 0)
    (halloc : ∀ c ∈ calls, c.1.isSome) :
    ∃ s o, registerAll calls s0 = some s ∧
      s.cleanup_count = calls.length ∧ calls.length ≤ s.cleanup_capacity ∧
      s.entries = calls.map (fun c => c.2) ∧
      (∀ k, ∃ sk, registerAll (calls.take k) s0 = some sk ∧
        registerAll (calls.drop k) sk = some s ∧ sk.entries = s.entries.take k) ∧
      AC_CleanupAll s = some o ∧
      o.trace = ((calls.map (fun c => c.2)).reverse.filter AC_Entry.present).filterMap
        AC_Entry.invocation ∧
      ((∀ c ∈ calls, c.2.present = true) → o.trace.length = calls.length ∧
        o.trace.map some = (calls.map (fun c => c.2)).reverse.map AC_Entry.invocation) := by
  have hent0 := entries_of_count_zero s0 hempty
  obtain ⟨s, hs, hc, hent, hcnt⟩ := registerAll_spec calls s0 hcons halloc
  rw [hent0, List.nil_append] at hent
  have hcnt' : s.cleanup_count = calls.length := by omega
  have hcl := cleanupAll_spec s (consistent_valid s hc)
  refine ⟨s, _, hs, hcnt', ?_, hent, ?_, hcl, ?_, ?_⟩
  · rw [← hcnt']; exact hc.1
  · intro k
    obtain ⟨sk, hsk, _, hentk, _⟩ := registerAll_spec (calls.take k) s0
      hcons (fun c hm => halloc c (List.mem_of_mem_take hm))
    refine ⟨sk, hsk, ?_, ?_⟩
    · have := registerAll_append (calls.take k) (calls.drop k) s0
      rw [List.take_append_drop, hs, hsk] at this
      exact this.symm
    · rw [hentk, hent, hent0, List.nil_append, List.map_take]
  · simp only [hent]; rfl
  · intro hall
    have hall' : ∀ e ∈ calls.map (fun c => c.2), e.present = true := by
      intro e he
      obtain ⟨c, hcm, rfl⟩ := List.mem_map.mp he
      exact hall c hcm
    have hmap := lifoTrace_all_present _ hall'
    simp only [hent]
    refine ⟨?_, hmap⟩
    have := congrArg List.length hmap
    simpa using this

/-- Witness of C6 (amended): 2000 registrations, beyond the initial capacity, on the
registry that a failed first allocation has left without a block. -/
theorem register_beyond_initial_capacity_witness :
    (unbackedReg.consistent ∧ unbackedReg.cleanup_count = 0 ∧
      ∀ c ∈ manyCalls, c.1.isSome) ∧
    ∃ s o, registerAll manyCalls unbackedReg = some s ∧
      s.cleanup_count = manyCalls.length ∧ manyCalls.length ≤ s.cleanup_capacity ∧
      s.entries = manyCalls.map (fun c => c.2) ∧
      (∀ k, ∃ sk, registerAll (manyCalls.take k) unbackedReg = some sk ∧
        registerAll (manyCalls.drop k) sk = some s ∧ sk.entries = s.entries.take k) ∧
      AC_CleanupAll s = some o ∧
      o.trace = ((manyCalls.map (fun c => c.2)).reverse.filter AC_Entry.present).filterMap
        AC_Entry.invocation ∧
      ((∀ c ∈ manyCalls, c.2.present = true) → o.trace.length = manyCalls.length ∧
        o.trace.map some = (manyCalls.map (fun c => c.2)).reverse.map AC_Entry.invocation) :=
  have h : ∀ c ∈ manyCalls, c.1.isSome := by
    intro c hc
    simp only [manyCalls, List.mem_map] at hc
    obtain ⟨i, _, rfl⟩ := hc
    rfl
  ⟨⟨by decide, by decide, h⟩,
    register_beyond_initial_capacity unbackedReg manyCalls (by decide) (by decide) h⟩

/-- C6 as stated fails in its last clause: after two `AC_Register` calls on the empty
registry, the first without an action, both entries are stored (count 2), and the full
cleanup releases one action, not two. -/
theorem inert_entry_not_released :
    (registerAll inertThenLive Registry.init).map (fun s => (s.cleanup_count, s.entries))
      = some (2, [⟨100, none⟩, ⟨200, some (CleanupFn.user 2)⟩]) ∧
    ((registerAll inertThenLive Registry.init).bind AC_CleanupAll).map (fun o => o.trace)
      = some [Event.call (CleanupFn.user 2) 200] := by
  refine ⟨by decide, by decide⟩

/-- C7: in every registry state reachable from the initial state by any sequence of
`AC_Alloc`, `AC_Register`, `AC_Remove` and `AC_CleanupAll`, each allocation or growth
attempt free to succeed or fail, `cleanup_count ≤ cleanup_capacity` holds, and every
operation from there is defined, does not decrease the capacity, and leaves it unchanged,
at the initial 1024, or doubled. -/
theorem count_le_capacity_and_capacity_grows (ops : List Op) :
    ∃ s, runOps ops Registry.init = some s ∧ s.cleanup_count ≤ s.cleanup_capacity ∧
      ∀ op : Op, ∃ s1, op.step s = some s1 ∧ s.cleanup_capacity ≤ s1.cleanup_capacity ∧
        (s1.cleanup_capacity = s.cleanup_capacity ∨ s1.cleanup_capacity = 1024 ∨
          s1.cleanup_capacity = s.cleanup_capacity * 2) := by
  obtain ⟨s, hs, hc⟩ := runOps_consistent ops Registry.init consistent_init
  refine ⟨s, hs, hc.1, fun op => ?_⟩
  obtain ⟨s1, hs1, _, htri, hle⟩ := step_spec op s hc
  exact ⟨s1, hs1, hle, htri⟩

/-! ## Claims on the ring log -/

/-- C8: for every n greater than 64, pushing n messages into a freshly initialised log and
then flushing emits at most 64 messages, and they are the most recently pushed ones: the
flush emits exactly the last 63 of the n messages, each truncated to the slot length, in
their original order, the oldest retained first. -/
theorem overflow_keeps_most_recent (al0 : AsyncLog) (msgs : List (List Char))
    (hs : al0.shaped) (hn : ASYNC_LOG_CAPACITY < msgs.length) :
    ∃ al out al2, pushAll msgs (AsyncLogInit al0) = some al ∧
      AsyncLogFlush al = some (out, al2) ∧
      out.length ≤ ASYNC_LOG_CAPACITY ∧ out.length = 63 ∧
      out = (msgs.drop (msgs.length - 63)).map (fun m => line (truncated m)) ∧
      (∀ k, k < 63 → ∃ m, msgs[msgs.length - 63 + k]? = some m ∧
        out[k]? = some (line (truncated m))) := by
  obtain ⟨al, al2, hpush, hflush, _⟩ := push_then_flush al0 hs msgs
  simp only [ASYNC_LOG_CAPACITY] at hn
  have hlen : ((msgs.drop (msgs.length - 63)).map (fun m => line (truncated m))).length = 63 := by
    simp only [List.length_map, List.length_drop]
    omega
  refine ⟨al, _, al2, hpush, hflush, ?_, hlen, rfl, ?_⟩
  · rw [hlen]; simp [ASYNC_LOG_CAPACITY]
  · intro k hk
    have hi : msgs.length - 63 + k < msgs.length := by omega
    refine ⟨msgs[msgs.length - 63 + k], List.getElem?_eq_getElem hi, ?_⟩
    simp only [List.getElem?_map, List.getElem?_drop, List.getElem?_eq_getElem hi,
      Option.map_some']

/-- Witness of C8: one hundred pushes into `demoLog` after its initialisation. -/
theorem overflow_keeps_most_recent_witness :
    (demoLog.shaped ∧ ASYNC_LOG_CAPACITY < hundredMsgs.length) ∧
    ∃ al out al2, pushAll hundredMsgs (AsyncLogInit demoLog) = some al ∧
      AsyncLogFlush al = some (out, al2) ∧
      out.length ≤ ASYNC_LOG_CAPACITY ∧ out.length = 63 ∧
      out = (hundredMsgs.drop (hundredMsgs.length - 63)).map
        (fun m => line (truncated m)) ∧
      (∀ k, k < 63 → ∃ m, hundredMsgs[hundredMsgs.length - 63 + k]? = some m ∧
        out[k]? = some (line (truncated m))) :=
  ⟨⟨by decide, by decide⟩,
    overflow_keeps_most_recent demoLog hundredMsgs (by decide) (by decide)⟩

/-- C9: for every ring log state with head and tail below 64 (a buffer of 64 slots whose
unread slots hold terminated strings), `AsyncLogFlush` emits exactly the contents of the
slots tail, tail+1, ..., head-1 (indices modulo 64) in that order, one per line, leaves
head and the slot contents unchanged and the buffer empty (tail equal to head); a second
flush right after emits nothing. -/
theorem flush_emits_unread_in_order (al : AsyncLog) (hh : al.head < ASYNC_LOG_CAPACITY)
    (ht : al.tail < ASYNC_LOG_CAPACITY) (hs : al.shaped)
    (hterm : ∀ slot ∈ al.unread, NUL ∈ slot) :
    ∃ out al1, AsyncLogFlush al = some (out, al1) ∧
      out = al.unread.map (fun slot => line (cstr slot)) ∧
      al1.head = al.head ∧ al1.buffer = al.buffer ∧ al1.tail = al1.head ∧
      AsyncLogFlush al1 = some ([], al1) := by
  obtain ⟨buf, head, tail⟩ := al
  simp only [ASYNC_LOG_CAPACITY] at hh ht
  have hblen : buf.length = 64 := hs.1
  have hslots : ∀ k, k < (head + 64 - tail) % 64 →
      ∃ slot, buf[(tail + k) % 64]? = some slot ∧ NUL ∈ slot := by
    intro k hk
    have hidx : (tail + k) % 64 < buf.length := by omega
    refine ⟨buf[(tail + k) % 64], List.getElem?_eq_getElem hidx, ?_⟩
    apply hterm
    simp only [AsyncLog.unread, ASYNC_LOG_CAPACITY, List.mem_map, List.mem_range]
    exact ⟨k, hk, by simp [List.getElem?_eq_getElem hidx]⟩
  have hfl := flushLoop_spec buf head hh ((head + 64 - tail) % 64) tail 64 ht rfl
    (by omega) hslots
  have hfl2 := flushLoop_spec buf head hh 0 head 64 hh (by omega) (by omega)
    (fun k hk => absurd hk (by omega))
  refine ⟨(List.range ((head + 64 - tail) % 64)).map
      (fun k => line (cstr ((buf[(tail + k) % 64]?).getD []))),
    ⟨buf, head, head⟩, ?_, ?_, rfl, rfl, rfl, ?_⟩
  · simp only [AsyncLogFlush, ASYNC_LOG_CAPACITY]; exact hfl
  · simp [AsyncLog.unread, ASYNC_LOG_CAPACITY, Function.comp]
  · simp only [AsyncLogFlush, ASYNC_LOG_CAPACITY]
    rw [hfl2]; rfl

/-- Witness of C9 on `demoLog`, whose unread slots are 62, 63, 0 and 1. -/
theorem flush_emits_unread_in_order_witness :
    (demoLog.head < ASYNC_LOG_CAPACITY ∧ demoLog.tail < ASYNC_LOG_CAPACITY ∧ demoLog.shaped ∧
      ∀ slot ∈ demoLog.unread, NUL ∈ slot) ∧
    ∃ out al1, AsyncLogFlush demoLog = some (out, al1) ∧
      out = demoLog.unread.map (fun slot => line (cstr slot)) ∧
      al1.head = demoLog.head ∧ al1.buffer = demoLog.buffer ∧ al1.tail = al1.head ∧
      AsyncLogFlush al1 = some ([], al1) :=
  ⟨⟨by decide, by decide, by decide, by decide⟩,
    flush_emits_unread_in_order demoLog (by decide) (by decide) (by decide) (by decide)⟩

/-- C10: for every ring log state with head below 64 and every message, `AsyncLogPush`
succeeds and stores in the slot at the old head the message (the C string `cstr msg`) cut
to at most 127 characters, that is its first min(length, 127) characters followed by a
terminator, then advances head by one modulo 64; the other slots are unchanged. -/
theorem push_stores_truncated (al : AsyncLog) (msg : List Char)
    (hh : al.head < ASYNC_LOG_CAPACITY) (hs : al.shaped) :
    ∃ al1 slot, AsyncLogPush al msg = some al1 ∧ al1.buffer[al.head]? = some slot ∧
      slot.take (min (cstr msg).length 127 + 1) = (cstr msg).take 127 ++ [NUL] ∧
      cstr slot = (cstr msg).take 127 ∧ slot.length = ASYNC_LOG_MSG_SIZE ∧
      al1.head = (al.head + 1) % ASYNC_LOG_CAPACITY ∧
      al1.buffer.length = al.buffer.length ∧
      ∀ i, i ≠ al.head → al1.buffer[i]? = al.buffer[i]? := by
  simp only [ASYNC_LOG_CAPACITY] at hh
  obtain ⟨slot, hslot, hslen, hpush⟩ := push_spec al msg hh hs
  obtain ⟨w1, _, w3, w4⟩ := written_slot_props slot msg hslen
  have hblen : al.buffer.length = 64 := hs.1
  refine ⟨_, _, hpush, List.getElem?_set_self (by omega), ?_, w3, w1, rfl, by simp, ?_⟩
  · rw [← truncated_length]; exact w4
  · intro i hi
    exact List.getElem?_set_ne (Ne.symm hi)

/-- Witness of C10: a message of 200 characters pushed into `demoLog`. -/
theorem push_stores_truncated_witness :
    (demoLog.head < ASYNC_LOG_CAPACITY ∧ demoLog.shaped) ∧
    ∃ al1 slot, AsyncLogPush demoLog longMsg = some al1 ∧
      al1.buffer[demoLog.head]? = some slot ∧
      slot.take (min (cstr longMsg).length 127 + 1) = (cstr longMsg).take 127 ++ [NUL] ∧
      cstr slot = (cstr longMsg).take 127 ∧ slot.length = ASYNC_LOG_MSG_SIZE ∧
      al1.head = (demoLog.head + 1) % ASYNC_LOG_CAPACITY ∧
      al1.buffer.length = demoLog.buffer.length ∧
      ∀ i, i ≠ demoLog.head → al1.buffer[i]? = demoLog.buffer[i]? :=
  ⟨⟨by decide, by decide⟩, push_stores_truncated demoLog longMsg (by decide) (by decide)⟩

/-! ## Claims on failure paths and on the unchecked product -/

/-- When `ac_ensure_capacity` reports failure it has left the count, the block and the
entry sequence as they were. -/
theorem ensure_capacity_failure (heap : Heap) (s : Registry)
    (h0 : (ac_ensure_capacity heap s).1 = 0) :
    (ac_ensure_capacity heap s).2.cleanup_count = s.cleanup_count ∧
    (ac_ensure_capacity heap s).2.cleanup_list = s.cleanup_list ∧
    (ac_ensure_capacity heap s).2.entries = s.entries := by
  obtain ⟨cl, c, cap⟩ := s
  cases cl with
  | none =>
    cases heap with
    | none => simp [ac_ensure_capacity, Registry.entries]
    | some junk => simp [ac_ensure_capacity] at h0
  | some l =>
    by_cases hfull : c ≥ cap
    · cases heap with
      | none => simp [ac_ensure_capacity, hfull]
      | some junk => simp [ac_ensure_capacity, hfull] at h0
    · simp [ac_ensure_capacity, hfull] at h0

/-- C11: for every registry state and size, if the allocation of `AC_Alloc` succeeds but
growing the registry fails, `AC_Alloc` returns NULL, releases the allocation it has just
made (one call of `free` on it) and adds no entry: count, block and entry sequence are as
before the call.  And for every registry state, size and heap, if the allocation itself
fails, `AC_Alloc` returns NULL after the diagnostic, calls nothing, and the registry is
unchanged. -/
theorem alloc_failure_leaves_no_entry :
    (∀ (ptr : Nat) (heap : Heap) (size : Nat) (s : Registry),
      ptr ≠ 0 → (ac_ensure_capacity heap s).1 = 0 →
      ∃ o, AC_Alloc ptr heap size s = some o ∧ o.ret = 0 ∧
        o.trace = [Event.call CleanupFn.free ptr] ∧
        o.reg.cleanup_count = s.cleanup_count ∧ o.reg.cleanup_list = s.cleanup_list ∧
        o.reg.entries = s.entries) ∧
    (∀ (heap : Heap) (size : Nat) (s : Registry),
      AC_Alloc 0 heap size s = some ⟨0, [Event.stderr (allocFailedMsg size)], s⟩) := by
  constructor
  · intro ptr heap size s hptr hgrow
    obtain ⟨h1, h2, h3⟩ := ensure_capacity_failure heap s hgrow
    refine ⟨⟨0, [Event.call CleanupFn.free ptr], (ac_ensure_capacity heap s).2⟩, ?_, rfl, rfl,
      h1, h2, h3⟩
    simp [AC_Alloc, hptr, hgrow]
  · intro heap size s
    simp [AC_Alloc]

/-- Witness of C11: growth fails on the full registry `fullReg`, whose block cannot be
enlarged, and on the initial registry, whose block cannot be allocated; the allocation
itself fails on `smallReg`, which has a block with room to spare. -/
theorem alloc_failure_leaves_no_entry_witness :
    (((4096 : Nat) ≠ 0 ∧ (ac_ensure_capacity none fullReg).1 = 0) ∧
      ∃ o, AC_Alloc 4096 none 128 fullReg = some o ∧ o.ret = 0 ∧
        o.trace = [Event.call CleanupFn.free 4096] ∧
        o.reg.cleanup_count = fullReg.cleanup_count ∧
        o.reg.cleanup_list = fullReg.cleanup_list ∧
        o.reg.entries = fullReg.entries) ∧
    (((4096 : Nat) ≠ 0 ∧ (ac_ensure_capacity none Registry.init).1 = 0) ∧
      ∃ o, AC_Alloc 4096 none 128 Registry.init = some o ∧ o.ret = 0 ∧
        o.trace = [Event.call CleanupFn.free 4096] ∧
        o.reg.cleanup_count = Registry.init.cleanup_count ∧
        o.reg.cleanup_list = Registry.init.cleanup_list ∧
        o.reg.entries = Registry.init.entries) ∧
    AC_Alloc 0 (some zeroJunk) 128 smallReg
      = some ⟨0, [Event.stderr (allocFailedMsg 128)], smallReg⟩ :=
  ⟨⟨⟨by decide, by decide⟩,
      alloc_failure_leaves_no_entry.1 4096 none 128 fullReg (by decide) (by decide)⟩,
    ⟨⟨by decide, by decide⟩,
      alloc_failure_leaves_no_entry.1 4096 none 128 Registry.init (by decide) (by decide)⟩,
    alloc_failure_leaves_no_entry.2 (some zeroJunk) 128 smallReg⟩

/-- C12, the code at the failing input: the first `AC_Register` call when the block
cannot be allocated.  The registration is dropped, the action is not invoked, count and
entries are unchanged, and nothing at all is written to the error stream. -/
theorem register_growth_failure_is_silent :
    (AC_Register none 4096 (some (CleanupFn.user 1)) Registry.init).map
        (fun o => (o.trace, o.reg.cleanup_count, o.reg.entries))
      = some ([], 0, []) := by
  decide

/-- C14: for every count and size, `AC_ArrayAlloc count size` is `AC_Alloc` of the
unchecked `size_t` product `(count * size) mod 2^64`: same result, same trace, same
registry.  So it can succeed where the true product is `2^64` or more, with an allocation
of fewer bytes: for count `2^32 + 1` and size `2^32` the request is `2^32` bytes, which
an allocator that cannot serve the true product serves. -/
theorem arrayAlloc_unchecked_product :
    (∀ (malloc : Nat → Nat) (heap : Heap) (count size : Nat) (s : Registry),
      AC_ArrayAlloc malloc heap count size s
        = AC_Alloc (malloc ((count * size) % 2 ^ 64)) heap ((count * size) % 2 ^ 64) s) ∧
    ((2 ^ 32 + 1 : Nat) < 2 ^ 64 ∧ (2 ^ 32 : Nat) < 2 ^ 64 ∧
      (2 : Nat) ^ 64 ≤ (2 ^ 32 + 1) * 2 ^ 32 ∧
      ((2 ^ 32 + 1) * 2 ^ 32) % SIZE_MOD = 2 ^ 32 ∧
      boundedMalloc ((2 ^ 32 + 1) * 2 ^ 32) = 0 ∧
      (AC_ArrayAlloc boundedMalloc (some zeroJunk) (2 ^ 32 + 1) (2 ^ 32) Registry.init).map
          (fun o => (o.ret, o.trace, o.reg.entries))
        = some (4096, [], [⟨4096, some CleanupFn.free⟩])) := by
  refine ⟨fun _ _ _ _ _ => rfl, by decide, by decide, by decide, by decide, by decide, by decide⟩

/-- The fallback message differs from every completion message of the background task:
the two texts part at their fifteenth character. -/
theorem fallbackMsg_ne_finishedMsg (elapsed : List Char) :
    fallbackMsg ≠ finishedMsg elapsed := by
  intro h
  have h15 := congrArg (List.take 15) h
  unfold finishedMsg at h15
  rw [List.take_take, List.append_assoc, List.take_append_of_le_length (by decide)] at h15
  revert h15
  decide

theorem truncated_fallbackMsg : truncated fallbackMsg = fallbackMsg := by decide

/-- No operation on the file-scope state initialises the shared log. -/
theorem step_never_inits (a : Api) (g : Global) (r : Run) (h : a.step g = some r) :
    LogUse.init ∉ r.logUses := by
  cases a with
  | registry op =>
    simp only [Api.step] at h
    cases hs : op.step g.reg with
    | none => rw [hs] at h; simp at h
    | some s =>
      rw [hs] at h
      simp only [Option.some.injEq] at h
      subst h; simp
  | cleanupAllAsync rc =>
    simp only [Api.step, AC_CleanupAllAsync] at h
    by_cases hrc : rc ≠ 0
    · simp only [hrc, ne_eq, not_false_eq_true, if_true] at h
      cases hc : AC_CleanupAll g.reg with
      | none => rw [hc] at h; simp at h
      | some o =>
        rw [hc] at h
        cases hp : AsyncLogPush g.ac_log fallbackMsg with
        | none => rw [hp] at h; simp at h
        | some al =>
          rw [hp] at h
          simp only [Option.some.injEq] at h
          subst h; simp
    · simp only [hrc, if_false, Option.some.injEq] at h
      subst h; simp
  | backgroundTask elapsed =>
    simp only [Api.step, ac_cleanup_thread] at h
    cases hc : AC_CleanupAll g.reg with
    | none => rw [hc] at h; simp at h
    | some o =>
      rw [hc] at h
      cases hp : AsyncLogPush g.ac_log (finishedMsg elapsed) with
      | none => rw [hp] at h; simp at h
      | some al =>
        rw [hp] at h
        simp only [Option.some.injEq] at h
        subst h; simp
  | flushLogs =>
    simp only [Api.step, AC_FlushLogs] at h
    cases hf : AsyncLogFlush g.ac_log with
    | none => rw [hf] at h; simp at h
    | some x =>
      rw [hf] at h
      simp only [Option.some.injEq] at h
      subst h; simp

/-- No sequence of operations on the file-scope state ever initialises the shared log. -/
theorem runApi_never_inits (apis : List Api) :
    ∀ (g : Global) (uses : List LogUse) (g2 : Global),
      runApi apis g = some (uses, g2) → LogUse.init ∉ uses := by
  induction apis with
  | nil =>
    intro g uses g2 h
    simp only [runApi, Option.some.injEq, Prod.mk.injEq] at h
    rw [← h.1]; simp
  | cons a rest ih =>
    intro g uses g2 h
    simp only [runApi] at h
    cases ha : a.step g with
    | none => rw [ha] at h; simp at h
    | some r =>
      rw [ha] at h
      dsimp only at h
      cases hr : runApi rest r.glob with
      | none => rw [hr] at h; simp at h
      | some p =>
        obtain ⟨u, g3⟩ := p
        rw [hr] at h
        simp only [Option.some.injEq, Prod.mk.injEq] at h
        rw [← h.1, List.mem_append]
        rintro (h1 | h2)
        · exact step_never_inits a g r ha h1
        · exact ih r.glob u g3 hr h2

/-- C13: for every registry and log state, if the background task cannot be started
(`pthread_create` returns non-zero), `AC_CleanupAllAsync` runs `AC_CleanupAll` itself
before returning (the same LIFO release trace after the diagnostic, count reset to
zero), and then pushes exactly one message into the shared log, the fallback text, which
the slot at the old head then holds in full and which differs from every completion
message of the background task. -/
theorem async_fallback_runs_sync (rc : Int) (g : Global) (hrc : rc ≠ 0)
    (hv : g.reg.valid) (hh : g.ac_log.head < ASYNC_LOG_CAPACITY) (hs : g.ac_log.shaped) :
    ∃ o al r, AC_CleanupAll g.reg = some o ∧ AsyncLogPush g.ac_log fallbackMsg = some al ∧
      AC_CleanupAllAsync rc g = some r ∧
      r.trace = Event.stderr threadFailedMsg :: o.trace ∧
      o.trace = lifoTrace g.reg.entries ∧
      r.glob.reg = o.reg ∧ r.glob.reg.cleanup_count = 0 ∧
      r.logUses = [LogUse.push] ∧ r.glob.ac_log = al ∧
      al.head = (g.ac_log.head + 1) % ASYNC_LOG_CAPACITY ∧
      (∃ slot, al.buffer[g.ac_log.head]? = some slot ∧ cstr slot = fallbackMsg) ∧
      fallbackMsg = "[AC_CleanupAll-Fallback] Finished sync cleanup".toList ∧
      ∀ elapsed, fallbackMsg ≠ finishedMsg elapsed := by
  have hcl := cleanupAll_spec g.reg hv
  simp only [ASYNC_LOG_CAPACITY] at hh
  obtain ⟨slot, _, hslen, hpush⟩ := push_spec g.ac_log fallbackMsg hh hs
  obtain ⟨_, _, w3, _⟩ := written_slot_props slot fallbackMsg hslen
  have hblen : g.ac_log.buffer.length = 64 := hs.1
  refine ⟨_, _, ⟨Event.stderr threadFailedMsg :: lifoTrace g.reg.entries, [LogUse.push],
    ⟨{ g.reg with cleanup_count := 0 }, _⟩⟩, hcl, hpush, ?_, rfl, rfl, rfl, rfl, rfl, rfl, rfl,
    ?_, rfl, fallbackMsg_ne_finishedMsg⟩
  · simp only [AC_CleanupAllAsync, hrc, ne_eq, not_false_eq_true, if_true, hcl, hpush]
  · exact ⟨_, List.getElem?_set_self (by omega), by rw [w3, truncated_fallbackMsg]⟩

/-- Witness of C13: `pthread_create` returns 11 with `smallReg` registered. -/
theorem async_fallback_runs_sync_witness :
    ((11 : Int) ≠ 0 ∧ smallGlobal.reg.valid ∧ smallGlobal.ac_log.head < ASYNC_LOG_CAPACITY ∧
      smallGlobal.ac_log.shaped) ∧
    ∃ o al r, AC_CleanupAll smallGlobal.reg = some o ∧
      AsyncLogPush smallGlobal.ac_log fallbackMsg = some al ∧
      AC_CleanupAllAsync 11 smallGlobal = some r ∧
      r.trace = Event.stderr threadFailedMsg :: o.trace ∧
      o.trace = lifoTrace smallGlobal.reg.entries ∧
      r.glob.reg = o.reg ∧ r.glob.reg.cleanup_count = 0 ∧
      r.logUses = [LogUse.push] ∧ r.glob.ac_log = al ∧
      al.head = (smallGlobal.ac_log.head + 1) % ASYNC_LOG_CAPACITY ∧
      (∃ slot, al.buffer[smallGlobal.ac_log.head]? = some slot ∧ cstr slot = fallbackMsg) ∧
      fallbackMsg = "[AC_CleanupAll-Fallback] Finished sync cleanup".toList ∧
      ∀ elapsed, fallbackMsg ≠ finishedMsg elapsed :=
  ⟨⟨by decide, by decide, by decide, by decide⟩,
    async_fallback_runs_sync 11 smallGlobal (by decide) (by decide) (by decide) (by decide)⟩

/-- C15, the code at the failing input: the calls of `main`, from the start-up state.
The shared log is pushed to by the background task and then flushed, and no
initialisation of it comes before either use (nor in the fallback run, where
`AC_CleanupAllAsync` pushes itself). -/
theorem shared_log_used_without_init :
    (runApi mainCalls Global.init).map (fun r => r.1) = some [LogUse.push, LogUse.flush] ∧
    (runApi [Api.cleanupAllAsync 11, Api.flushLogs] Global.init).map (fun r => r.1)
      = some [LogUse.push, LogUse.flush] := by
  refine ⟨by decide, by decide⟩

/-! ## Lemmas on logs in use -/

theorem ready_slots (al : AsyncLog) (h : al.ready) :
    ∀ k, k < (al.head + 64 - al.tail) % 64 →
      ∃ slot, al.buffer[(al.tail + k) % 64]? = some slot ∧ NUL ∈ slot := by
  obtain ⟨_, _, hs, hterm⟩ := h
  intro k hk
  have hblen : al.buffer.length = 64 := hs.1
  have hidx : (al.tail + k) % 64 < al.buffer.length := by omega
  refine ⟨al.buffer[(al.tail + k) % 64], List.getElem?_eq_getElem hidx, ?_⟩
  apply hterm
  simp only [AsyncLog.unread, ASYNC_LOG_CAPACITY, List.mem_map, List.mem_range]
  exact ⟨k, hk, by simp [List.getElem?_eq_getElem hidx]⟩

theorem ready_of_slots (al : AsyncLog) (hh : al.head < 64) (ht : al.tail < 64)
    (hs : al.shaped)
    (hslots : ∀ k, k < (al.head + 64 - al.tail) % 64 →
      ∃ slot, al.buffer[(al.tail + k) % 64]? = some slot ∧ NUL ∈ slot) : al.ready := by
  refine ⟨hh, ht, hs, ?_⟩
  intro slot hmem
  simp only [AsyncLog.unread, ASYNC_LOG_CAPACITY, List.mem_map, List.mem_range] at hmem
  obtain ⟨k, hk, rfl⟩ := hmem
  obtain ⟨s1, h1, h2⟩ := hslots k hk
  simpa [h1] using h2

theorem ready_init (al0 : AsyncLog) (hs : al0.shaped) : (AsyncLogInit al0).ready := by
  refine ready_of_slots _ (by simp [AsyncLogInit]) (by simp [AsyncLogInit]) hs ?_
  intro k hk
  simp [AsyncLogInit] at hk

/-- A push keeps a log in use in use. -/
theorem ready_push (al : AsyncLog) (msg : List Char) (h : al.ready) :
    ∃ al1, AsyncLogPush al msg = some al1 ∧ al1.ready := by
  have hslots := ready_slots al h
  obtain ⟨hh, ht, hs, _⟩ := h
  simp only [ASYNC_LOG_CAPACITY] at hh ht
  obtain ⟨slot, hslot, hslen, hpush⟩ := push_spec al msg hh hs
  obtain ⟨w1, w2, _, _⟩ := written_slot_props slot msg hslen
  have hblen : al.buffer.length = 64 := hs.1
  refine ⟨_, hpush, ?_⟩
  apply ready_of_slots
  · show (al.head + 1) % 64 < 64
    omega
  · show (if (al.head + 1) % 64 = al.tail then (al.tail + 1) % 64 else al.tail) < 64
    split <;> omega
  · refine ⟨by simp [ASYNC_LOG_CAPACITY, hblen], ?_⟩
    intro x hx
    rcases List.mem_or_eq_of_mem_set hx with hx1 | hx1
    · exact hs.2 x hx1
    · simp only [ASYNC_LOG_MSG_SIZE]; rw [hx1]; exact w1
  · intro k hk
    simp only at hk ⊢
    by_cases hfull : (al.head + 1) % 64 = al.tail
    · simp only [hfull, if_true] at hk ⊢
      by_cases hidx : ((al.tail + 1) % 64 + k) % 64 = al.head
      · rw [hidx]
        exact ⟨_, List.getElem?_set_self (by omega), w2⟩
      · obtain ⟨s1, h1, h2⟩ := hslots (k + 1) (by omega)
        have he : (al.tail + (k + 1)) % 64 = ((al.tail + 1) % 64 + k) % 64 := by omega
        rw [he] at h1
        exact ⟨s1, by rw [List.getElem?_set_ne (Ne.symm hidx)]; exact h1, h2⟩
    · simp only [hfull, if_false] at hk ⊢
      by_cases hidx : (al.tail + k) % 64 = al.head
      · rw [hidx]
        exact ⟨_, List.getElem?_set_self (by omega), w2⟩
      · obtain ⟨s1, h1, h2⟩ := hslots k (by omega)
        exact ⟨s1, by rw [List.getElem?_set_ne (Ne.symm hidx)]; exact h1, h2⟩

/-- The flush of a log in use: with more fuel than unread messages the loop ends, having
emitted the unread slots in order; the log it leaves is in use and empty. -/
theorem flush_ready (al : AsyncLog) (h : al.ready) (fuel : Nat) (hf : al.pending < fuel) :
    flushLoop fuel al
      = some (al.unread.map (fun slot => line (cstr slot)), ⟨al.buffer, al.head, al.head⟩) ∧
    (al.unread.map (fun slot => line (cstr slot))).length = al.pending ∧
    (⟨al.buffer, al.head, al.head⟩ : AsyncLog).ready := by
  have hslots := ready_slots al h
  obtain ⟨hh, ht, hs, _⟩ := h
  simp only [ASYNC_LOG_CAPACITY] at hh ht
  simp only [AsyncLog.pending, ASYNC_LOG_CAPACITY] at hf
  obtain ⟨buf, head, tail⟩ := al
  simp only at hh ht hf hslots
  have hfl := flushLoop_spec buf head hh ((head + 64 - tail) % 64) tail fuel ht rfl hf hslots
  refine ⟨?_, ?_, ?_⟩
  · rw [hfl]
    simp [AsyncLog.unread, ASYNC_LOG_CAPACITY, Function.comp]
  · simp [AsyncLog.unread, AsyncLog.pending]
  · refine ready_of_slots _ hh hh hs ?_
    intro k hk
    simp only at hk
    omega

/-- With no more fuel than unread messages the flush loop has not ended. -/
theorem flushLoop_short (buf : List (List Char)) (head : Nat) (hh : head < 64) :
    ∀ (fuel tail : Nat), tail < 64 → fuel ≤ (head + 64 - tail) % 64 →
      (∀ k, k < (head + 64 - tail) % 64 →
        ∃ slot, buf[(tail + k) % 64]? = some slot ∧ NUL ∈ slot) →
      flushLoop fuel ⟨buf, head, tail⟩ = none := by
  intro fuel
  induction fuel with
  | zero => intro tail _ _ _; rfl
  | succ f ih =>
    intro tail ht hf hslots
    have hne : tail ≠ head := by
      intro heq; subst heq; omega
    obtain ⟨slot, hslot, hnul⟩ := hslots 0 (by omega)
    have ht0 : (tail + 0) % 64 = tail := by omega
    rw [ht0] at hslot
    have hrec := ih ((tail + 1) % 64) (by omega) (by omega) (by
      intro k hk
      have := hslots (k + 1) (by omega)
      have hidx : ((tail + 1) % 64 + k) % 64 = (tail + (k + 1)) % 64 := by omega
      rw [hidx]; exact this)
    rw [flushLoop]
    simp only [hne, ne_eq, not_false_eq_true, if_true, hslot, printLine, hnul,
      ASYNC_LOG_CAPACITY, hrec]

/-- Every sequence of pushes and flushes keeps a log in use in use. -/
theorem runLog_ready (ops : List LogOp) :
    ∀ (al : AsyncLog), al.ready → ∃ al1, runLog ops al = some al1 ∧ al1.ready := by
  induction ops with
  | nil => intro al h; exact ⟨al, rfl, h⟩
  | cons op ops ih =>
    intro al h
    cases op with
    | push msg =>
      obtain ⟨al1, h1, hr1⟩ := ready_push al msg h
      obtain ⟨al2, h2, hr2⟩ := ih al1 hr1
      exact ⟨al2, by simp [runLog, LogOp.step, h1, h2], hr2⟩
    | flush =>
      have hp : al.pending < 64 := by
        simp only [AsyncLog.pending, ASYNC_LOG_CAPACITY]; omega
      obtain ⟨h1, _, hr1⟩ := flush_ready al h 64 hp
      obtain ⟨al2, h2, hr2⟩ := ih _ hr1
      exact ⟨al2, by simp [runLog, LogOp.step, AsyncLogFlush, ASYNC_LOG_CAPACITY, h1, h2], hr2⟩

theorem truncated_of_short (m : List Char) (hn : NUL ∉ m) (hl : m.length ≤ 127) :
    truncated m = m := by
  have hc : cstr m = m := by
    unfold cstr
    rw [List.takeWhile_eq_self_iff]
    intro c hc
    simp only [ne_eq, decide_eq_true_eq]
    intro h; subst h; exact hn hc
  simp only [truncated, hc, ASYNC_LOG_MSG_SIZE]
  exact List.take_of_length_le (by omega)

/-! ## Claims on the bounds of the ring log -/

/-- C17: the 64-slot ring log never holds more than 63 unread messages.  In every state
reachable from `AsyncLogInit` by pushes and flushes the number of unread messages
`(head - tail) mod 64` is at most 63 and is the number of lines a flush emits; and a
flush after n pushes into a freshly initialised log emits exactly the last 63 pushed
messages (as the slots keep them: cut to 127 characters, so unchanged when they fit) for
n ≥ 63, never 64, and all n for n < 63. -/
theorem at_most_63_unread (al0 : AsyncLog) (hs : al0.shaped) :
    (∀ ops : List LogOp, ∃ al out al2, runLog ops (AsyncLogInit al0) = some al ∧
      al.pending ≤ 63 ∧ al.unread.length = al.pending ∧
      AsyncLogFlush al = some (out, al2) ∧ out.length = al.pending) ∧
    (∀ msgs : List (List Char), ∃ al out al2, pushAll msgs (AsyncLogInit al0) = some al ∧
      AsyncLogFlush al = some (out, al2) ∧
      out = (msgs.drop (msgs.length - 63)).map (fun m => line (truncated m)) ∧
      (63 ≤ msgs.length → out.length = 63) ∧
      (msgs.length < 63 →
        out.length = msgs.length ∧ out = msgs.map (fun m => line (truncated m))) ∧
      ((∀ m ∈ msgs, NUL ∉ m ∧ m.length ≤ 127) →
        out = (msgs.drop (msgs.length - 63)).map line)) := by
  constructor
  · intro ops
    obtain ⟨al, hal, hready⟩ := runLog_ready ops _ (ready_init al0 hs)
    have hp : al.pending < 64 := by
      simp only [AsyncLog.pending, ASYNC_LOG_CAPACITY]; omega
    obtain ⟨h1, h2, _⟩ := flush_ready al hready 64 hp
    refine ⟨al, al.unread.map (fun slot => line (cstr slot)), ⟨al.buffer, al.head, al.head⟩,
      hal, by omega, ?_, ?_, h2⟩
    · simpa using h2
    · simp only [AsyncLogFlush, ASYNC_LOG_CAPACITY]; exact h1
  · intro msgs
    obtain ⟨al, al2, hpush, hflush, _⟩ := push_then_flush al0 hs msgs
    refine ⟨al, _, al2, hpush, hflush, rfl, ?_, ?_, ?_⟩
    · intro hn
      simp only [List.length_map, List.length_drop]
      omega
    · intro hn
      have h0 : msgs.length - 63 = 0 := by omega
      rw [h0, List.drop_zero]
      exact ⟨by simp, rfl⟩
    · intro hall
      apply List.map_congr_left
      intro m hm
      have := hall m (List.mem_of_mem_drop hm)
      rw [truncated_of_short m this.1 this.2]

/-- Witness of C17 on the log `demoLog`. -/
theorem at_most_63_unread_witness :
    demoLog.shaped ∧
    ((∀ ops : List LogOp, ∃ al out al2, runLog ops (AsyncLogInit demoLog) = some al ∧
      al.pending ≤ 63 ∧ al.unread.length = al.pending ∧
      AsyncLogFlush al = some (out, al2) ∧ out.length = al.pending) ∧
    (∀ msgs : List (List Char), ∃ al out al2,
      pushAll msgs (AsyncLogInit demoLog) = some al ∧
      AsyncLogFlush al = some (out, al2) ∧
      out = (msgs.drop (msgs.length - 63)).map (fun m => line (truncated m)) ∧
      (63 ≤ msgs.length → out.length = 63) ∧
      (msgs.length < 63 →
        out.length = msgs.length ∧ out = msgs.map (fun m => line (truncated m))) ∧
      ((∀ m ∈ msgs, NUL ∉ m ∧ m.length ≤ 127) →
        out = (msgs.drop (msgs.length - 63)).map line))) :=
  ⟨by decide, at_most_63_unread demoLog (by decide)⟩

/-- C18: in every ring log state reachable from `AsyncLogInit` by any sequence of pushes
and flushes, head and tail are both below 64, and the flush loop terminates from it after
exactly `(head - tail) mod 64` iterations, at most 63: that many guard evaluations do not
end the loop, one more does, and one line has been emitted per iteration. -/
theorem flush_loop_iterations (al0 : AsyncLog) (hs : al0.shaped) (ops : List LogOp) :
    ∃ al, runLog ops (AsyncLogInit al0) = some al ∧
      al.head < 64 ∧ al.tail < 64 ∧ al.pending = (al.head + 64 - al.tail) % 64 ∧
      al.pending ≤ 63 ∧
      flushLoop al.pending al = none ∧
      ∀ fuel, al.pending < fuel →
        ∃ out al2, flushLoop fuel al = some (out, al2) ∧ out.length = al.pending ∧
          al2.tail = al2.head := by
  obtain ⟨al, hal, hready⟩ := runLog_ready ops _ (ready_init al0 hs)
  have hslots := ready_slots al hready
  have hh : al.head < 64 := hready.1
  have ht : al.tail < 64 := hready.2.1
  have hp : al.pending = (al.head + 64 - al.tail) % 64 := rfl
  refine ⟨al, hal, hh, ht, hp, by omega, ?_, ?_⟩
  · have := flushLoop_short al.buffer al.head hh al.pending al.tail ht (by omega) hslots
    exact this
  · intro fuel hf
    obtain ⟨h1, h2, _⟩ := flush_ready al hready fuel hf
    exact ⟨_, _, h1, h2, rfl⟩

/-- Witness of C18: seventy pushes into `demoLog` with a flush among them. -/
theorem flush_loop_iterations_witness :
    demoLog.shaped ∧
    ∃ al, runLog mixedLogOps (AsyncLogInit demoLog) = some al ∧
      al.head < 64 ∧ al.tail < 64 ∧ al.pending = (al.head + 64 - al.tail) % 64 ∧
      al.pending ≤ 63 ∧
      flushLoop al.pending al = none ∧
      ∀ fuel, al.pending < fuel →
        ∃ out al2, flushLoop fuel al = some (out, al2) ∧ out.length = al.pending ∧
          al2.tail = al2.head :=
  ⟨by decide, flush_loop_iterations demoLog (by decide) mixedLogOps⟩

/-! ## Claims on storage bounds and on the null handle -/

theorem clamp_valid (s : Registry) (hv : s.valid) : s.clamp.valid := by
  obtain ⟨cl, c, cap⟩ := s
  cases cl with
  | none => simpa [Registry.clamp, Registry.valid, Registry.slots] using hv
  | some l =>
    simp only [Registry.valid, Registry.slots] at hv
    simp only [Registry.clamp, Registry.valid, Registry.slots, Option.map_some',
      List.length_take]
    omega

theorem clamp_entries (s : Registry) : s.clamp.entries = s.entries := by
  obtain ⟨cl, c, cap⟩ := s
  cases cl with
  | none => rfl
  | some l => simp [Registry.clamp, Registry.entries, List.take_take]

/-- Removal reads and writes below the count only: it is defined, with the same result,
on the registry whose block ends at the count. -/
theorem remove_on_clamp (h : Nat) (s : Registry) (hv : s.valid) :
    ∃ o o2, AC_Remove h s = some o ∧ AC_Remove h s.clamp = some o2 ∧
      o2.ret = o.ret ∧ o2.trace = o.trace ∧ o2.reg.entries = o.reg.entries := by
  have k1 := remove_spec h s hv
  have k2 := remove_spec h s.clamp (clamp_valid s hv)
  rw [clamp_entries] at k2
  cases hfm : firstMatch h s.entries with
  | none =>
    rw [hfm] at k1 k2
    exact ⟨_, _, k1, k2, rfl, rfl, clamp_entries s⟩
  | some e =>
    rw [hfm] at k1 k2
    obtain ⟨o, ho, hr, ht, he, _⟩ := k1
    obtain ⟨o2, ho2, hr2, ht2, he2, _⟩ := k2
    exact ⟨o, o2, ho, ho2, by rw [hr, hr2], by rw [ht, ht2], by rw [he, he2]⟩

/-- C19: in every registry state reachable from the initial state by `AC_Alloc`,
`AC_Register`, `AC_Remove` and `AC_CleanupAll`, allocation and growth free to fail,
whenever `ac_ensure_capacity` reports success the block exists, has `cleanup_capacity`
slots, and `cleanup_count < cleanup_capacity`, so the write at index `cleanup_count` in
`AC_Alloc` and `AC_Register` stays inside it (both are defined); and `AC_Remove` and
`AC_CleanupAll` touch no index at or beyond the count: they are defined, with the same
result, on the registry whose block is cut down to its first `cleanup_count` slots. -/
theorem accesses_within_storage (ops : List Op) :
    ∃ s, runOps ops Registry.init = some s ∧
      (∀ heap : Heap, (ac_ensure_capacity heap s).1 ≠ 0 →
        (ac_ensure_capacity heap s).2.cleanup_list ≠ none ∧
        (ac_ensure_capacity heap s).2.cleanup_count
          < (ac_ensure_capacity heap s).2.cleanup_capacity ∧
        (ac_ensure_capacity heap s).2.slots = (ac_ensure_capacity heap s).2.cleanup_capacity) ∧
      (∀ heap ptr fn, ∃ o, AC_Register heap ptr fn s = some o) ∧
      (∀ ptr heap size, ∃ o, AC_Alloc ptr heap size s = some o) ∧
      (∀ h, ∃ o o2, AC_Remove h s = some o ∧ AC_Remove h s.clamp = some o2 ∧
        o2.ret = o.ret ∧ o2.trace = o.trace ∧ o2.reg.entries = o.reg.entries) ∧
      (∃ o o2, AC_CleanupAll s = some o ∧ AC_CleanupAll s.clamp = some o2 ∧
        o2.trace = o.trace) := by
  obtain ⟨s, hs, hc⟩ := runOps_consistent ops Registry.init consistent_init
  have hv := consistent_valid s hc
  refine ⟨s, hs, ?_, ?_, ?_, ?_, ?_⟩
  · intro heap hok
    obtain ⟨e1, _, _, _, _, _, e6, _⟩ := ensure_capacity_spec heap s hc
    obtain ⟨hl, hlt⟩ := e6 hok
    exact ⟨hl, hlt, (e1.2.2 hl).1⟩
  · intro heap ptr fn
    obtain ⟨o, ho, _⟩ := register_spec heap ptr fn s hc
    exact ⟨o, ho⟩
  · intro ptr heap size
    obtain ⟨o, ho, _⟩ := alloc_spec ptr heap size s hc
    exact ⟨o, ho⟩
  · intro h
    exact remove_on_clamp h s hv
  · have k1 := cleanupAll_spec s hv
    have k2 := cleanupAll_spec s.clamp (clamp_valid s hv)
    rw [clamp_entries] at k2
    exact ⟨_, _, k1, k2, rfl⟩

/-- Witness of C19 on a sequence of six operations, two of which meet a failing
allocation. -/
theorem accesses_within_storage_witness :
    ∃ s, runOps mixedOps Registry.init = some s ∧
      (∀ heap : Heap, (ac_ensure_capacity heap s).1 ≠ 0 →
        (ac_ensure_capacity heap s).2.cleanup_list ≠ none ∧
        (ac_ensure_capacity heap s).2.cleanup_count
          < (ac_ensure_capacity heap s).2.cleanup_capacity ∧
        (ac_ensure_capacity heap s).2.slots = (ac_ensure_capacity heap s).2.cleanup_capacity) ∧
      (∀ heap ptr fn, ∃ o, AC_Register heap ptr fn s = some o) ∧
      (∀ ptr heap size, ∃ o, AC_Alloc ptr heap size s = some o) ∧
      (∀ h, ∃ o o2, AC_Remove h s = some o ∧ AC_Remove h s.clamp = some o2 ∧
        o2.ret = o.ret ∧ o2.trace = o.trace ∧ o2.reg.entries = o.reg.entries) ∧
      (∃ o o2, AC_CleanupAll s = some o ∧ AC_CleanupAll s.clamp = some o2 ∧
        o2.trace = o.trace) :=
  accesses_within_storage mixedOps

/-- C20 (amended): `AC_Remove` and `AC_CleanupAll` treat an entry with the null handle
and a present action differently.  For every registry state containing such an entry,
`AC_CleanupAll` invokes no action on the null handle and discards every entry (count
reset to zero), whereas `AC_Remove` of NULL matches the first entry whose handle is null,
removes it and returns 1, making the call of that entry's action, if it has one, on the
null handle: so it invokes the action of the first such entry exactly when no
null-handle entry without an action precedes it. -/
theorem null_handle_cleanup_vs_remove (s : Registry) (hv : s.valid) (e : AC_Entry)
    (he : e ∈ s.entries) (hnull : e.ptr = 0) (_hfn : e.fn.isSome) :
    (∃ o, AC_CleanupAll s = some o ∧ (∀ f, Event.call f 0 ∉ o.trace) ∧
      o.reg.cleanup_count = 0 ∧ o.reg.entries = []) ∧
    (∃ pre e1 post o, s.entries = pre ++ e1 :: post ∧ e1.ptr = 0 ∧ (∀ x ∈ pre, x.ptr ≠ 0) ∧
      AC_Remove 0 s = some o ∧ o.ret = 1 ∧ o.reg.entries = pre ++ post ∧
      o.reg.cleanup_count + 1 = s.cleanup_count ∧
      (∀ f, e1.fn = some f → o.trace = [Event.call f 0]) ∧
      (e1.fn = none → o.trace = [])) := by
  constructor
  · refine ⟨_, cleanupAll_spec s hv, ?_, rfl, ?_⟩
    · intro f hmem
      obtain ⟨x, _, hx0, g, _, hev⟩ := mem_lifoTrace _ _ hmem
      simp only [Event.call.injEq] at hev
      exact hx0 hev.2.symm
    · simp only [Registry.entries]
      cases s.cleanup_list with
      | none => rfl
      | some l => simp
  · have hreg : registered 0 s.entries := ⟨e, he, hnull⟩
    obtain ⟨pre, e1, post, hsplit, hep, hpre, hfm, hdel⟩ := split_first_match 0 s.entries hreg
    have key := remove_spec 0 s hv
    rw [hfm] at key
    obtain ⟨o, ho, hret, htr, hent, hcnt, _, _⟩ := key
    have hcpos : 0 < s.cleanup_count := by
      have hlen : s.entries.length ≤ s.cleanup_count := by
        unfold Registry.entries
        cases s.cleanup_list with
        | none => simp
        | some l => simp [List.length_take]
      have : 0 < s.entries.length := by rw [hsplit]; simp
      omega
    refine ⟨pre, e1, post, o, hsplit, hep, hpre, ho, hret, by rw [hent, hdel], by omega, ?_, ?_⟩
    · intro f hf
      rw [htr, releaseCall, hf, hep]
    · intro hf
      rw [htr, releaseCall, hf]

/-- Witness of C20 (amended) on `nullLive`, whose second entry has the null handle and
an action. -/
theorem null_handle_cleanup_vs_remove_witness :
    (nullLive.valid ∧ (⟨0, some (CleanupFn.user 1)⟩ : AC_Entry) ∈ nullLive.entries ∧
      (⟨0, some (CleanupFn.user 1)⟩ : AC_Entry).ptr = 0 ∧
      (⟨0, some (CleanupFn.user 1)⟩ : AC_Entry).fn.isSome) ∧
    ((∃ o, AC_CleanupAll nullLive = some o ∧ (∀ f, Event.call f 0 ∉ o.trace) ∧
      o.reg.cleanup_count = 0 ∧ o.reg.entries = []) ∧
    (∃ pre e1 post o, nullLive.entries = pre ++ e1 :: post ∧ e1.ptr = 0 ∧
      (∀ x ∈ pre, x.ptr ≠ 0) ∧
      AC_Remove 0 nullLive = some o ∧ o.ret = 1 ∧ o.reg.entries = pre ++ post ∧
      o.reg.cleanup_count + 1 = nullLive.cleanup_count ∧
      (∀ f, e1.fn = some f → o.trace = [Event.call f 0]) ∧
      (e1.fn = none → o.trace = []))) :=
  ⟨⟨by decide, by decide, by decide, by decide⟩,
    null_handle_cleanup_vs_remove nullLive (by decide) ⟨0, some (CleanupFn.user 1)⟩
      (by decide) (by decide) (by decide)⟩

/-- C20 as stated fails: `nullPair` contains an entry with the null handle and a present
action, preceded by a null-handle entry without one.  `AC_Remove` of NULL returns 1 but
matches the entry without an action: it invokes nothing, and the entry with the action
is the one that stays. -/
theorem remove_null_takes_inert_entry :
    nullPair.valid ∧ (⟨0, some (CleanupFn.user 1)⟩ : AC_Entry) ∈ nullPair.entries ∧
    (AC_Remove 0 nullPair).map (fun o => (o.ret, o.trace, o.reg.entries))
      = some (1, [], [⟨0, some (CleanupFn.user 1)⟩]) := by
  refine ⟨by decide, by decide, by decide⟩

end Autoclean
